import Mathlib

set_option maxRecDepth 10000

/-!
Shallow embedding of the MLFQ scheduler simulation from
src/note6/mlfq/mlfq_simulation.c.

The C program is a single-threaded discrete-event simulation over machine
ints; all quantities occurring in it (times, bursts, counters) stay far
below any overflow bound for the inputs considered, so C `int` is embedded
as `Int`.  The only division in the program, `time_slice / 5`, is applied
to the nonnegative quanta 10/20/40, where C truncating division agrees
with Lean's `Int` division.  The per-level arrays of process pointers
(`Process *processes[MAX_PROCESSES]` plus `count`) are embedded as a
`List Nat` of indices into the process array; pointer identity in C is
index identity here.  The `printf` trace is embedded as a list of `Event`
values (most recent first); the simulation's `while` loop is embedded with
explicit fuel (each fuel unit is one iteration of the loop body, and a
spent loop guard makes further fuel a no-op, so any sufficiently large
fuel yields the C program's final state).
-/

def MAX_PROCESSES : Nat := 10

def NUM_QUEUES : Nat := 3

/-- Mirrors the C `Process` struct of mlfq_simulation.c.  `current_queue`
is stored as `Nat` since the program only ever assigns queue levels
`0 .. NUM_QUEUES-1` to it; `is_io_bound` (a C int used as a flag) is a
`Bool`. -/
structure Process where
  id : Int
  arrival_time : Int
  burst_time : Int
  remaining_time : Int
  current_queue : Nat
  time_in_current_quantum : Int
  completion_time : Int
  turnaround_time : Int
  waiting_time : Int
  first_run_time : Int
  is_io_bound : Bool
deriving Repr, DecidableEq

/-- Mirrors the C `Queue` struct: the pointer array plus `count` become a
list of indices into the process array. -/
structure Queue where
  processes : List Nat
  time_quantum : Int
deriving Repr, DecidableEq

/-- One entry of the simulated `printf` trace, one constructor per
distinct `printf` in the scheduler (exact wording is not load-bearing). -/
inductive Event where
  | arrives (time pid : Int)
  | running (time pid : Int) (priority : Nat) (remaining quantum : Int)
  | completedE (time pid : Int)
  | ioYield (time pid : Int) (priority : Nat)
  | demoted (time pid : Int) (nextPriority : Nat)
  | requeued (time pid : Int) (priority : Nat)
  | idleE (time : Int)
  | boostE (time : Int)
deriving Repr, DecidableEq

/-- Default `Process` used with `List.getD`; queues only ever hold valid
indices in states reachable by the simulation. -/
def dP : Process :=
  { id := 0, arrival_time := 0, burst_time := 0, remaining_time := 0,
    current_queue := 0, time_in_current_quantum := 0, completion_time := 0,
    turnaround_time := 0, waiting_time := 0, first_run_time := 0,
    is_io_bound := false }

/-- Default `Queue` used with `List.getD`. -/
def dQ : Queue := { processes := [], time_quantum := 0 }

/-- The program's global mutable state: the `queues` array, `current_time`,
`last_boost_time`, plus the caller's process array, the loop-local
`completed` counter, a flag recording that the `Error: No process to run`
break was taken, and the trace. -/
structure SimState where
  procs : List Process
  queues : List Queue
  current_time : Int
  last_boost_time : Int
  completed : Nat
  errored : Bool
  events : List Event
deriving Repr, DecidableEq

/-- The C global `boost_interval = 50`. -/
def boost_interval : Int := 50

/-- Mirrors `init_queues`: quantum of level i is `(1 << i) * 10`. -/
def init_queues : List Queue :=
  (List.range NUM_QUEUES).map
    (fun i => { processes := [], time_quantum := (2 ^ i : Int) * 10 })

/-- Mirrors `add_process_to_queue`: appends the process index to the given
level if that level holds fewer than `MAX_PROCESSES` references, setting
the process's `current_queue` and resetting its quantum usage; otherwise
it does nothing at all. -/
def add_process_to_queue (s : SimState) (pidx : Nat) (queue_level : Nat) :
    SimState :=
  if (s.queues.getD queue_level dQ).processes.length < MAX_PROCESSES then
    let q := s.queues.getD queue_level dQ
    let p := s.procs.getD pidx dP
    { s with
      queues := s.queues.set queue_level
        { q with processes := q.processes ++ [pidx] },
      procs := s.procs.set pidx
        { p with current_queue := queue_level, time_in_current_quantum := 0 } }
  else s

/-- Mirrors the body of one pass of the boost loop in `get_next_process`:
move every reference of level `q` to level 0 (via `add_process_to_queue`)
and then clear level `q` (`queues[q].count = 0`). -/
def boost_level (s : SimState) (q : Nat) : SimState :=
  let items := (s.queues.getD q dQ).processes
  let s1 := items.foldl (fun st i => add_process_to_queue st i 0) s
  { s1 with
    queues := s1.queues.set q
      { s1.queues.getD q dQ with processes := [] } }

/-- Mirrors the priority-boost prologue of `get_next_process` (Rule 5). -/
def maybe_boost (s : SimState) : SimState :=
  if boost_interval ≤ s.current_time - s.last_boost_time then
    let s0 := { s with events := Event.boostE s.current_time :: s.events }
    let s1 := ((List.range NUM_QUEUES).drop 1).foldl boost_level s0
    { s1 with last_boost_time := s1.current_time }
  else s

/-- Index of the first non-empty queue in the list, starting the count at
`start`; mirrors the scan `for (q = 0; q < NUM_QUEUES; q++)`. -/
def first_nonempty : List Queue → Nat → Option Nat
  | [], _ => none
  | qu :: qs, start =>
      if qu.processes.length > 0 then some start
      else first_nonempty qs (start + 1)

/-- Mirrors `get_next_process`: boost if due, then pop the head of the
highest-priority non-empty queue (the left shift of the C array is the
list tail). -/
def get_next_process (s : SimState) : Option Nat × SimState :=
  match first_nonempty (maybe_boost s).queues 0 with
  | none => (none, maybe_boost s)
  | some q =>
      match ((maybe_boost s).queues.getD q dQ).processes with
      | [] => (none, maybe_boost s)
      | pidx :: rest =>
          (some pidx,
           { maybe_boost s with
             queues := (maybe_boost s).queues.set q
               { (maybe_boost s).queues.getD q dQ with
                 processes := rest } })

/-- Mirrors the arrival scan at the top of the simulation loop: a process
is admitted (at level 0) exactly when its `arrival_time` equals the
current clock. -/
def check_arrivals (s : SimState) : SimState :=
  (List.range s.procs.length).foldl
    (fun st i =>
      let p := st.procs.getD i dP
      if p.arrival_time = st.current_time then
        add_process_to_queue
          { st with events := Event.arrives st.current_time p.id :: st.events }
          i 0
      else st)
    s

/-- The `run_time` computation of the dispatch block: an I/O-bound process
uses a fifth of the quantum (capped by its remaining burst), a CPU-bound
process the rest of its quantum (capped by its remaining burst). -/
def run_time_for (p : Process) (time_slice : Int) : Int :=
  if p.is_io_bound = true then
    let rt := time_slice / 5
    if rt > p.remaining_time then p.remaining_time else rt
  else
    if p.remaining_time < time_slice - p.time_in_current_quantum then
      p.remaining_time
    else time_slice - p.time_in_current_quantum

/-- The first half of the dispatch block of `run_mlfq_simulation`: record
the first run time, compute `run_time`, log the `Running` line, advance
the clock, decrement the remaining burst and increment the quantum
usage. -/
def dispatch_core (s : SimState) (pidx : Nat) : SimState :=
  let p0 := s.procs.getD pidx dP
  let p1 := if p0.first_run_time = -1 then
              { p0 with first_run_time := s.current_time } else p0
  let q := p0.current_queue
  let time_slice := (s.queues.getD q dQ).time_quantum
  let run_time := run_time_for p0 time_slice
  let p2 := { p1 with
              remaining_time := p0.remaining_time - run_time,
              time_in_current_quantum :=
                p0.time_in_current_quantum + run_time }
  { s with
    procs := s.procs.set pidx p2,
    current_time := s.current_time + run_time,
    events := Event.running s.current_time p0.id q p0.remaining_time
                time_slice :: s.events }

/-- The second half of the dispatch block: the four-way outcome chain
(completion, I/O yield, full-quantum demotion, same-level re-queue), in
the order of the C `if`/`else if` chain.  `run_time`, `time_slice` and
`q` are the values computed before the state update, exactly as in C. -/
def dispatch_route (s : SimState) (pidx : Nat)
    (run_time time_slice : Int) (q : Nat) : SimState :=
  let p := s.procs.getD pidx dP
  if p.remaining_time = 0 then
    let p1 := { p with
                completion_time := s.current_time,
                turnaround_time := s.current_time - p.arrival_time,
                waiting_time :=
                  (s.current_time - p.arrival_time) - p.burst_time }
    { s with
      procs := s.procs.set pidx p1,
      completed := s.completed + 1,
      events := Event.completedE s.current_time p.id :: s.events }
  else if p.is_io_bound = true ∧ run_time < time_slice then
    let p1 := { p with
                time_in_current_quantum := 0,
                arrival_time := s.current_time + 10 }
    { s with
      procs := s.procs.set pidx p1,
      events := Event.ioYield s.current_time p.id q :: s.events }
  else if time_slice ≤ p.time_in_current_quantum then
    let next_queue := if q < NUM_QUEUES - 1 then q + 1 else q
    let p1 := { p with time_in_current_quantum := 0 }
    let s1 := { s with
                procs := s.procs.set pidx p1,
                events :=
                  Event.demoted s.current_time p.id next_queue :: s.events }
    add_process_to_queue s1 pidx next_queue
  else
    add_process_to_queue
      { s with events := Event.requeued s.current_time p.id q :: s.events }
      pidx q

/-- The whole dispatch block, `dispatch_core` followed by the outcome
chain with the pre-update values. -/
def dispatch (s : SimState) (pidx : Nat) : SimState :=
  let p0 := s.procs.getD pidx dP
  let q := p0.current_queue
  let time_slice := (s.queues.getD q dQ).time_quantum
  let run_time := run_time_for p0 time_slice
  dispatch_route (dispatch_core s pidx) pidx run_time time_slice q

/-- The accumulator step of the idle branch's minimum-arrival scan, with
the C sentinel `-1` for `no future arrival found yet`. -/
def na_step (t : Int) (na : Int) (p : Process) : Int :=
  if 0 < p.remaining_time ∧ t < p.arrival_time then
    if na = -1 ∨ p.arrival_time < na then p.arrival_time else na
  else na

/-- Mirrors the `next_arrival` scan of the idle branch. -/
def find_next_arrival (s : SimState) : Int :=
  s.procs.foldl (na_step s.current_time) (-1)

/-- Mirrors the idle branch: log `CPU idle`, then either jump the clock to
the minimum future arrival or take the `Error: No process to run but not
all completed` break (recorded by the `errored` flag). -/
def idle_step (s : SimState) : SimState :=
  let s1 := { s with events := Event.idleE s.current_time :: s.events }
  let na := find_next_arrival s
  if na = -1 then { s1 with errored := true }
  else { s1 with current_time := na }

/-- One iteration of the `while (completed < n)` body: arrival scan, then
either a dispatch or the idle branch. -/
def loop_iter (s : SimState) : SimState :=
  match get_next_process (check_arrivals s) with
  | (some pidx, s2) => dispatch s2 pidx
  | (none, s2) => idle_step s2

/-- One guarded step of the loop: run the body when the loop guard holds
and the error break was not taken, otherwise do nothing. -/
def sim_step (s : SimState) : SimState :=
  if s.completed < s.procs.length ∧ s.errored = false then loop_iter s else s

/-- The simulation loop with explicit fuel; once the guard fails, further
fuel leaves the state unchanged, so any large enough fuel produces the C
loop's exit state. -/
def sim_loop : Nat → SimState → SimState
  | 0, s => s
  | fuel + 1, s => sim_step (sim_loop fuel s)

/-- Mirrors the initialization of `run_mlfq_simulation`: reset the queues
and the mutable run-state of every process (the caller-supplied fields,
including `completion_time`, are left as given, as in the C struct
initializers of `main`). -/
def init_state (ps : List Process) : SimState :=
  { procs := ps.map (fun p =>
      { p with remaining_time := p.burst_time, current_queue := 0,
               time_in_current_quantum := 0, first_run_time := -1 }),
    queues := init_queues,
    current_time := 0,
    last_boost_time := 0,
    completed := 0,
    errored := false,
    events := [] }

/-- Mirrors `run_mlfq_simulation`, with explicit fuel for the loop. -/
def run_mlfq_simulation (ps : List Process) (fuel : Nat) : SimState :=
  sim_loop fuel (init_state ps)

/-- The response time reported by `print_results`: `first_run_time`
minus the (final) `arrival_time` field. -/
def response_time (p : Process) : Int :=
  p.first_run_time - p.arrival_time

/-- An input process record in the style of the struct initializers of
`main`: static attributes set, mutable run-state zeroed, `first_run_time`
at the sentinel -1. -/
def mkP (i arr burst : Int) (io : Bool) : Process :=
  { id := i, arrival_time := arr, burst_time := burst, remaining_time := 0,
    current_queue := 0, time_in_current_quantum := 0, completion_time := 0,
    turnaround_time := 0, waiting_time := 0, first_run_time := -1,
    is_io_bound := io }

/-- One I/O-bound process of burst 3 arriving at time 0: it yields once
(overwriting its `arrival_time` with the I/O re-arrival time 12) and then
completes, exposing how the terminal statistics are computed. -/
def ps_c1 : List Process := [mkP 1 0 3 true]

/-- A CPU-bound process of burst 10 at time 0 together with a CPU-bound
process arriving at time 5: the first dispatch jumps the clock from 0
to 10, past the arrival time 5. -/
def ps_c2 : List Process := [mkP 1 0 10 false, mkP 2 5 5 false]

/-- The end-to-end scenario of the spec: one I/O-bound process of burst 5
and one CPU-bound process of burst 100, both arriving at time 0. -/
def ps_c3 : List Process := [mkP 1 0 5 true, mkP 2 0 100 false]

/-- Fourteen CPU-bound processes: ten arriving at time 0 and four more at
times 60, 70, 80, 90, timed so that at the dispatch decision at time 100
the boost must move five references into a level-0 FIFO that already
holds nine. -/
def ps_c6 : List Process :=
  [mkP 1 0 200 false, mkP 2 0 200 false, mkP 3 0 200 false,
   mkP 4 0 200 false, mkP 5 0 200 false, mkP 6 0 200 false,
   mkP 7 0 200 false, mkP 8 0 200 false, mkP 9 0 200 false,
   mkP 10 0 200 false, mkP 11 60 200 false, mkP 12 70 200 false,
   mkP 13 80 200 false, mkP 14 90 200 false]

/-- Eleven CPU-bound processes of burst 10 all arriving at time 0: eleven
references are routed to level 0 at time 0 and the eleventh is dropped. -/
def ps_c10 : List Process :=
  [mkP 1 0 10 false, mkP 2 0 10 false, mkP 3 0 10 false, mkP 4 0 10 false,
   mkP 5 0 10 false, mkP 6 0 10 false, mkP 7 0 10 false, mkP 8 0 10 false,
   mkP 9 0 10 false, mkP 10 0 10 false, mkP 11 0 10 false]

/-- A state whose level-0 FIFO already holds `MAX_PROCESSES` references,
used to exercise the silent drop of `add_process_to_queue`. -/
def full_queue_state : SimState :=
  { procs := [],
    queues := [{ processes := [0, 1, 2, 3, 4, 5, 6, 7, 8, 9],
                 time_quantum := 10 },
               { processes := [], time_quantum := 20 },
               { processes := [], time_quantum := 40 }],
    current_time := 0, last_boost_time := 0, completed := 0,
    errored := false, events := [] }

/-- A reachable-shaped state with one reference in level 1 and one in
level 2 and the boost overdue, used to instantiate the boost theorem. -/
def c6_witness_state : SimState :=
  { procs := [mkP 1 0 5 false, mkP 2 0 7 false],
    queues := [{ processes := [], time_quantum := 10 },
               { processes := [0], time_quantum := 20 },
               { processes := [1], time_quantum := 40 }],
    current_time := 60, last_boost_time := 0, completed := 0,
    errored := false, events := [] }

/-- A state with empty queues and one process whose arrival time lies in
the future, used to instantiate the idle-handling theorem. -/
def c7_witness_state : SimState :=
  { procs := [{ mkP 1 5 3 false with remaining_time := 3 }],
    queues := init_queues,
    current_time := 0, last_boost_time := 0, completed := 0,
    errored := false, events := [] }

/-- One I/O-bound process of burst 2: its first dispatch runs it to
completion, used to instantiate the dispatch-outcome theorem. -/
def ps_c5w : List Process := [mkP 1 0 2 true]

/-- The quantum the simulation associates to each queue level (10, 20,
40; out-of-range levels see the default queue's quantum 0). -/
def quantumOf (level : Nat) : Int :=
  ([10, 20, 40] : List Int).getD level 0

/-- The queue array keeps the shape `init_queues` gives it: three levels
with quanta 10, 20 and 40. -/
def QShape (s : SimState) : Prop :=
  ∃ l0 l1 l2,
    s.queues = [{ processes := l0, time_quantum := 10 },
                { processes := l1, time_quantum := 20 },
                { processes := l2, time_quantum := 40 }]

/-- Every process record keeps `0 ≤ remaining_time ≤ burst_time`. -/
def RemBounds (s : SimState) : Prop :=
  ∀ p ∈ s.procs, 0 ≤ p.remaining_time ∧ p.remaining_time ≤ p.burst_time

/-- Every CPU-bound process referenced by some queue has used at most the
quantum of its recorded level: the fact that makes every dispatch length
nonnegative. -/
def QuantumUsage (s : SimState) : Prop :=
  ∀ qu ∈ s.queues, ∀ i ∈ qu.processes,
    (s.procs.getD i dP).is_io_bound = false →
    (s.procs.getD i dP).time_in_current_quantum ≤
      quantumOf (s.procs.getD i dP).current_queue

/-- The inductive invariant of the simulation loop used for the
remaining-burst bounds. -/
def SimInv (s : SimState) : Prop :=
  QShape s ∧ RemBounds s ∧ QuantumUsage s

/-- What the dispatch step needs to know about the process it was handed
by `get_next_process`. -/
def DispOk (s : SimState) (pidx : Nat) : Prop :=
  (s.procs.getD pidx dP).is_io_bound = false →
  (s.procs.getD pidx dP).time_in_current_quantum ≤
    quantumOf (s.procs.getD pidx dP).current_queue

/-- The remaining burst of the process at index `i`. -/
def remAt (s : SimState) (i : Nat) : Int :=
  (s.procs.getD i dP).remaining_time

/-- The idle-branch qualification: an unfinished process with a strictly
future arrival time (the C condition `remaining_time > 0 &&
arrival_time > current_time`). -/
def Qual (t : Int) (p : Process) : Prop :=
  0 < p.remaining_time ∧ t < p.arrival_time

/-- Follows the wording of the spec (dispatch amount calculation): with
`quantum = quantum_for(level)`, `run_time = min(remaining_burst,
quantum / 5)` for an I/O-bound process and `min(remaining_burst,
quantum - quantum_usage_so_far)` for a CPU-bound one.  To be compared
with the source's `run_time_for`. -/
def spec_run_time (s : SimState) (pidx : Nat) : Int :=
  let p := s.procs.getD pidx dP
  let quantum := (s.queues.getD p.current_queue dQ).time_quantum
  if p.is_io_bound = true then min p.remaining_time (quantum / 5)
  else min p.remaining_time (quantum - p.time_in_current_quantum)

/-- Final state of the run on `ps_c1` (enough fuel to finish). -/
def c1_final : SimState := run_mlfq_simulation ps_c1 5

/-- The single process record at the end of the `ps_c1` run. -/
def c1_p : Process := c1_final.procs.getD 0 dP

/-- Final state of the run on `ps_c2`. -/
def c2_final : SimState := run_mlfq_simulation ps_c2 5

/-- Process 2's record at the end of the `ps_c2` run. -/
def c2_p : Process := c2_final.procs.getD 1 dP

/-- Final state of the run on `ps_c3`. -/
def c3_final : SimState := run_mlfq_simulation ps_c3 12

/-- The I/O-bound process's record at the end of the `ps_c3` run. -/
def c3_pio : Process := c3_final.procs.getD 0 dP

/-- The CPU-bound process's record at the end of the `ps_c3` run. -/
def c3_pcpu : Process := c3_final.procs.getD 1 dP

theorem getD_set_self {α : Type} (l : List α) (i : Nat) (a d : α)
    (h : i < l.length) : (l.set i a).getD i d = a := by
  simp [List.getD_eq_getElem?_getD, List.getElem?_set_self, h]

theorem getD_set_ne {α : Type} (l : List α) (i j : Nat) (a d : α)
    (h : i ≠ j) : (l.set i a).getD j d = l.getD j d := by
  simp [List.getD_eq_getElem?_getD, List.getElem?_set_ne h]

theorem getD_mem {α : Type} (l : List α) (i : Nat) (d : α)
    (h : i < l.length) : l.getD i d ∈ l := by
  rw [List.getD_eq_getElem?_getD, List.getElem?_eq_getElem h]
  exact List.getElem_mem h

theorem foldl_preserves {σ α β : Type} (f : σ → α → σ) (g : σ → β)
    (l : List α) (hf : ∀ s a, a ∈ l → g (f s a) = g s) (s : σ) :
    g (l.foldl f s) = g s := by
  induction l generalizing s with
  | nil => rfl
  | cons x xs ih =>
      rw [List.foldl_cons,
        ih (fun s a ha => hf s a (List.mem_cons_of_mem _ ha)) (f s x),
        hf s x (List.mem_cons_self _ _)]

theorem foldl_inv {σ α : Type} (f : σ → α → σ) (P : σ → Prop)
    (l : List α) (hf : ∀ s a, a ∈ l → P s → P (f s a)) (s : σ)
    (hs : P s) : P (l.foldl f s) := by
  induction l generalizing s with
  | nil => exact hs
  | cons x xs ih =>
      exact ih (fun s a ha => hf s a (List.mem_cons_of_mem _ ha)) (f s x)
        (hf s x (List.mem_cons_self _ _) hs)

/-- C1: the claim states that terminal statistics are computed from the
static arrival attribute and are all nonnegative.  The code instead uses
the current `arrival_time` field, which an I/O yield overwrites with the
re-arrival time.  For the single I/O-bound process of `ps_c1` (id 1,
static arrival 0, burst 3) the run completes at time 13 after one yield
overwrote `arrival_time` to 12, so the recorded turnaround is 1 (not
13 - 0), the recorded waiting time is -2 < 0, and the response time
reported by `print_results` is 0 - 12 = -12 < 0. -/
theorem c1_terminal_stats_eval :
    c1_final.completed = 1 ∧ c1_p.remaining_time = 0 ∧
    c1_p.completion_time = 13 ∧ c1_p.first_run_time = 0 ∧
    c1_p.arrival_time = 12 ∧
    c1_p.turnaround_time = 1 ∧ c1_p.waiting_time = -2 ∧
    response_time c1_p = -12 ∧
    ¬ 0 ≤ c1_p.waiting_time ∧ ¬ 0 ≤ response_time c1_p ∧
    c1_p.turnaround_time ≠ c1_p.completion_time - 0 := by decide

/-- C2: the claim states a process is admitted once the clock reaches
(is at or past) its arrival time.  The code admits only on exact
equality of clock and arrival, so for `ps_c2` the first dispatch jumps
the clock from 0 to 10 over the arrival time 5 of process 2, which is
then never admitted: the run aborts at clock 10 ≥ 5 with process 2
unstarted (`first_run_time` still -1), unfinished (remaining burst 5)
and in no queue. -/
theorem c2_admission_missed_eval :
    c2_final.errored = true ∧ c2_final.completed = 1 ∧
    c2_final.current_time = 10 ∧ c2_p.arrival_time = 5 ∧
    c2_p.arrival_time ≤ c2_final.current_time ∧
    c2_p.remaining_time = 5 ∧ c2_p.first_run_time = -1 ∧
    c2_final.queues.map (fun q => q.processes) = [[], [], []] := by decide

/-- C3: on the spec scenario `ps_c3` (I/O-bound burst 5 and CPU-bound
burst 100, both arriving at 0) the I/O-bound process is dropped after
its second yield — its re-arrival time 24 is skipped when the clock
jumps from 14 to 34 — so it never completes (remaining burst 1 when the
run aborts), while the CPU-bound process completes at 104.  The other
two parts of the claim do hold on this run: the I/O-bound process's
first run is at 0 versus 2 for the CPU-bound one (strictly lower
response from the static arrivals 0), and it is never demoted (its
queue level is 0 throughout; the trace holds no demotion event for
id 1).  The completion part fails, refuting the claim as stated. -/
theorem c3_io_process_never_completes_eval :
    c3_final.errored = true ∧ c3_final.completed = 1 ∧
    c3_pio.remaining_time = 1 ∧ c3_pio.first_run_time = 0 ∧
    c3_pio.current_queue = 0 ∧ c3_pcpu.completion_time = 104 ∧
    c3_pcpu.first_run_time = 2 ∧ c3_pcpu.remaining_time = 0 ∧
    c3_final.events.reverse =
      [Event.arrives 0 1, Event.arrives 0 2, Event.running 0 1 0 5 10,
       Event.ioYield 2 1 0, Event.running 2 2 0 100 10,
       Event.demoted 12 2 1, Event.arrives 12 1,
       Event.running 12 1 0 3 10, Event.ioYield 14 1 0,
       Event.running 14 2 1 90 20, Event.demoted 34 2 2,
       Event.running 34 2 2 70 40, Event.demoted 74 2 2,
       Event.boostE 74, Event.running 74 2 0 30 10,
       Event.demoted 84 2 1, Event.running 84 2 1 20 20,
       Event.completedE 104 2, Event.idleE 104] := by decide

/-- C6 counterexample: on `ps_c6`, at the dispatch decision reached
after ten loop iterations the clock is 100, the last boost was at 50
(so the boost fires), level 1 holds the references 5, 6, 7, 8, 9 and
level 0 already holds nine references.  The boost moves reference 5 and
then silently drops 6, 7, 8, 9 (level 0 is full), leaving the
non-terminal process 7 (index 6, remaining burst 190) in no queue at
all — so not every reference of the levels above 0 is moved into the
level-0 FIFO, refuting the claim as stated. -/
theorem c6_boost_drop_counterexample :
    let s := check_arrivals (sim_loop 10 (init_state ps_c6))
    boost_interval ≤ s.current_time - s.last_boost_time ∧
    (s.queues.getD 1 dQ).processes = [5, 6, 7, 8, 9] ∧
    0 < (s.procs.getD 6 dP).remaining_time ∧
    (maybe_boost s).queues.map (fun q => q.processes) =
      [[0, 1, 2, 3, 4, 10, 11, 12, 13, 5], [], []] := by decide

/-- C10: enqueuing into a level whose FIFO already holds
`MAX_PROCESSES` references leaves the whole state unchanged — the
reference is appended nowhere and no error is raised; and on the input
`ps_c10` (eleven processes arriving at time 0, so eleven references are
routed to level 0 at once) the eleventh process is silently dropped: it
is never dispatched (`first_run_time` stays -1, its remaining burst
stays 10) and the run ends with only ten processes completed, via the
error break. -/
theorem c10_enqueue_full_drop :
    (∀ (s : SimState) (pidx level : Nat),
        ¬ (s.queues.getD level dQ).processes.length < MAX_PROCESSES →
        add_process_to_queue s pidx level = s) ∧
    ((run_mlfq_simulation ps_c10 20).completed = 10 ∧
     (run_mlfq_simulation ps_c10 20).errored = true ∧
     ((run_mlfq_simulation ps_c10 20).procs.getD 10 dP).first_run_time
        = -1 ∧
     ((run_mlfq_simulation ps_c10 20).procs.getD 10 dP).remaining_time
        = 10) := by
  constructor
  · intro s pidx level h
    unfold add_process_to_queue
    rw [if_neg h]
  · decide

/-- Closed instance of the C10 drop behavior: adding to the full level 0
of `full_queue_state` returns the state unchanged. -/
theorem c10_enqueue_full_drop_witness :
    add_process_to_queue full_queue_state 3 0 = full_queue_state :=
  c10_enqueue_full_drop.1 full_queue_state 3 0 (by decide)

/-- C9: the simulation is a pure function of the process list and the
fuel (the embedded code draws on no randomness, wall clock or other
input), so two runs on identical inputs produce the same event trace,
the same final per-process records, and the same final state. -/
theorem c9_deterministic (ps1 ps2 : List Process) (fuel1 fuel2 : Nat)
    (hp : ps1 = ps2) (hf : fuel1 = fuel2) :
    (run_mlfq_simulation ps1 fuel1).events =
      (run_mlfq_simulation ps2 fuel2).events ∧
    (run_mlfq_simulation ps1 fuel1).procs =
      (run_mlfq_simulation ps2 fuel2).procs ∧
    run_mlfq_simulation ps1 fuel1 = run_mlfq_simulation ps2 fuel2 := by
  subst hp; subst hf; exact ⟨rfl, rfl, rfl⟩

/-- Closed instance of determinism on the `ps_c1` input. -/
theorem c9_deterministic_witness :
    (run_mlfq_simulation ps_c1 5).events =
      (run_mlfq_simulation ps_c1 5).events ∧
    (run_mlfq_simulation ps_c1 5).procs =
      (run_mlfq_simulation ps_c1 5).procs ∧
    run_mlfq_simulation ps_c1 5 = run_mlfq_simulation ps_c1 5 :=
  c9_deterministic ps_c1 ps_c1 5 5 rfl rfl

theorem run_time_for_min (p : Process) (ts : Int) :
    run_time_for p ts =
      if p.is_io_bound = true then min p.remaining_time (ts / 5)
      else min p.remaining_time (ts - p.time_in_current_quantum) := by
  unfold run_time_for
  cases hio : p.is_io_bound <;> simp only [hio, Bool.false_eq_true,
    if_false, if_true]
  · rw [min_def]; split_ifs <;> omega
  · generalize ts / 5 = d
    rw [min_def]; split_ifs <;> omega

theorem run_time_for_eq_spec (s : SimState) (pidx : Nat) :
    run_time_for (s.procs.getD pidx dP)
        ((s.queues.getD (s.procs.getD pidx dP).current_queue dQ).time_quantum)
      = spec_run_time s pidx := by
  rw [run_time_for_min]; rfl

theorem add_current_time (s : SimState) (pidx level : Nat) :
    (add_process_to_queue s pidx level).current_time = s.current_time := by
  unfold add_process_to_queue; split <;> rfl

theorem add_last_boost (s : SimState) (pidx level : Nat) :
    (add_process_to_queue s pidx level).last_boost_time
      = s.last_boost_time := by
  unfold add_process_to_queue; split <;> rfl

theorem add_completed (s : SimState) (pidx level : Nat) :
    (add_process_to_queue s pidx level).completed = s.completed := by
  unfold add_process_to_queue; split <;> rfl

theorem add_errored (s : SimState) (pidx level : Nat) :
    (add_process_to_queue s pidx level).errored = s.errored := by
  unfold add_process_to_queue; split <;> rfl

theorem add_events (s : SimState) (pidx level : Nat) :
    (add_process_to_queue s pidx level).events = s.events := by
  unfold add_process_to_queue; split <;> rfl

theorem add_procs_length (s : SimState) (pidx level : Nat) :
    (add_process_to_queue s pidx level).procs.length
      = s.procs.length := by
  unfold add_process_to_queue; split
  · exact List.length_set s.procs _ _
  · rfl

theorem dispatch_route_frame (s : SimState) (pidx : Nat) (rt ts : Int)
    (q : Nat) :
    (dispatch_route s pidx rt ts q).current_time = s.current_time ∧
    (dispatch_route s pidx rt ts q).last_boost_time = s.last_boost_time ∧
    (dispatch_route s pidx rt ts q).errored = s.errored ∧
    (dispatch_route s pidx rt ts q).procs.length = s.procs.length := by
  simp only [dispatch_route]
  split_ifs <;>
    first
      | exact ⟨rfl, rfl, rfl, List.length_set s.procs _ _⟩
      | exact ⟨add_current_time _ _ _, add_last_boost _ _ _,
          add_errored _ _ _,
          (add_procs_length _ _ _).trans (List.length_set s.procs _ _)⟩
      | exact ⟨add_current_time _ _ _, add_last_boost _ _ _,
          add_errored _ _ _, add_procs_length _ _ _⟩

theorem core_getD (s : SimState) (pidx : Nat) (h : pidx < s.procs.length) :
    (dispatch_core s pidx).procs.getD pidx dP =
      { (if (s.procs.getD pidx dP).first_run_time = -1 then
           { s.procs.getD pidx dP with first_run_time := s.current_time }
         else s.procs.getD pidx dP) with
        remaining_time := (s.procs.getD pidx dP).remaining_time -
          run_time_for (s.procs.getD pidx dP)
            ((s.queues.getD (s.procs.getD pidx dP).current_queue
                dQ).time_quantum),
        time_in_current_quantum :=
          (s.procs.getD pidx dP).time_in_current_quantum +
          run_time_for (s.procs.getD pidx dP)
            ((s.queues.getD (s.procs.getD pidx dP).current_queue
                dQ).time_quantum) } :=
  getD_set_self s.procs pidx _ dP h

theorem core_getD_fields (s : SimState) (pidx : Nat)
    (h : pidx < s.procs.length) :
    ((dispatch_core s pidx).procs.getD pidx dP).is_io_bound
      = (s.procs.getD pidx dP).is_io_bound ∧
    ((dispatch_core s pidx).procs.getD pidx dP).current_queue
      = (s.procs.getD pidx dP).current_queue ∧
    ((dispatch_core s pidx).procs.getD pidx dP).id
      = (s.procs.getD pidx dP).id ∧
    ((dispatch_core s pidx).procs.getD pidx dP).arrival_time
      = (s.procs.getD pidx dP).arrival_time ∧
    ((dispatch_core s pidx).procs.getD pidx dP).burst_time
      = (s.procs.getD pidx dP).burst_time := by
  rw [core_getD s pidx h]
  split <;> exact ⟨rfl, rfl, rfl, rfl, rfl⟩

/-- C4: on a dispatch of the process at index `pidx` (sitting at the
level its record names, with quantum read from that level), the run
time is `min(remaining_burst, quantum / 5)` for an I/O-bound process
and `min(remaining_burst, quantum - quantum_usage_so_far)` for a
CPU-bound one; the dispatch advances the clock by that run time,
decreases the remaining burst by it and increases the quantum usage by
it (the outcome routing that follows may afterwards reset the usage
counter, as the spec's re-queue rules state). -/
theorem c4_dispatch_arithmetic (s : SimState) (pidx : Nat)
    (h : pidx < s.procs.length) :
    (dispatch_core s pidx).current_time
      = s.current_time + spec_run_time s pidx ∧
    remAt (dispatch_core s pidx) pidx
      = remAt s pidx - spec_run_time s pidx ∧
    ((dispatch_core s pidx).procs.getD pidx dP).time_in_current_quantum
      = (s.procs.getD pidx dP).time_in_current_quantum
        + spec_run_time s pidx ∧
    (dispatch s pidx).current_time
      = s.current_time + spec_run_time s pidx := by
  have hrt := run_time_for_eq_spec s pidx
  refine ⟨congrArg (fun x => s.current_time + x) hrt, ?_, ?_, ?_⟩
  · exact (congrArg Process.remaining_time (core_getD s pidx h)).trans
      (congrArg (fun x => (s.procs.getD pidx dP).remaining_time - x) hrt)
  · exact (congrArg Process.time_in_current_quantum
      (core_getD s pidx h)).trans
      (congrArg
        (fun x => (s.procs.getD pidx dP).time_in_current_quantum + x) hrt)
  · exact ((dispatch_route_frame (dispatch_core s pidx) pidx _ _ _).1).trans
      (congrArg (fun x => s.current_time + x) hrt)

/-- Closed instance of the dispatch arithmetic on the initial state of
`ps_c1`. -/
theorem c4_dispatch_arithmetic_witness :
    (dispatch_core (init_state ps_c1) 0).current_time
      = (init_state ps_c1).current_time + spec_run_time (init_state ps_c1) 0 ∧
    remAt (dispatch_core (init_state ps_c1) 0) 0
      = remAt (init_state ps_c1) 0 - spec_run_time (init_state ps_c1) 0 ∧
    ((dispatch_core (init_state ps_c1) 0).procs.getD 0
        dP).time_in_current_quantum
      = ((init_state ps_c1).procs.getD 0 dP).time_in_current_quantum
        + spec_run_time (init_state ps_c1) 0 ∧
    (dispatch (init_state ps_c1) 0).current_time
      = (init_state ps_c1).current_time + spec_run_time (init_state ps_c1) 0 :=
  c4_dispatch_arithmetic (init_state ps_c1) 0 (by decide)

theorem route_completion (s : SimState) (pidx : Nat) (rt ts : Int)
    (q : Nat) (h0 : (s.procs.getD pidx dP).remaining_time = 0) :
    dispatch_route s pidx rt ts q =
      { s with
        procs := s.procs.set pidx
          { s.procs.getD pidx dP with
            completion_time := s.current_time,
            turnaround_time :=
              s.current_time - (s.procs.getD pidx dP).arrival_time,
            waiting_time :=
              (s.current_time - (s.procs.getD pidx dP).arrival_time)
                - (s.procs.getD pidx dP).burst_time },
        completed := s.completed + 1,
        events := Event.completedE s.current_time
          (s.procs.getD pidx dP).id :: s.events } := by
  simp only [dispatch_route]
  rw [if_pos h0]

theorem route_yield (s : SimState) (pidx : Nat) (rt ts : Int) (q : Nat)
    (h0 : ¬ (s.procs.getD pidx dP).remaining_time = 0)
    (hy : (s.procs.getD pidx dP).is_io_bound = true ∧ rt < ts) :
    dispatch_route s pidx rt ts q =
      { s with
        procs := s.procs.set pidx
          { s.procs.getD pidx dP with
            time_in_current_quantum := 0,
            arrival_time := s.current_time + 10 },
        events := Event.ioYield s.current_time
          (s.procs.getD pidx dP).id q :: s.events } := by
  simp only [dispatch_route]
  rw [if_neg h0, if_pos hy]

theorem route_demote (s : SimState) (pidx : Nat) (rt ts : Int) (q : Nat)
    (h0 : ¬ (s.procs.getD pidx dP).remaining_time = 0)
    (hy : ¬ ((s.procs.getD pidx dP).is_io_bound = true ∧ rt < ts))
    (hq : ts ≤ (s.procs.getD pidx dP).time_in_current_quantum) :
    dispatch_route s pidx rt ts q =
      add_process_to_queue
        { s with
          procs := s.procs.set pidx
            { s.procs.getD pidx dP with time_in_current_quantum := 0 },
          events := Event.demoted s.current_time
            (s.procs.getD pidx dP).id
            (if q < NUM_QUEUES - 1 then q + 1 else q) :: s.events }
        pidx (if q < NUM_QUEUES - 1 then q + 1 else q) := by
  simp only [dispatch_route]
  rw [if_neg h0, if_neg hy, if_pos hq]

theorem route_requeue (s : SimState) (pidx : Nat) (rt ts : Int) (q : Nat)
    (h0 : ¬ (s.procs.getD pidx dP).remaining_time = 0)
    (hy : ¬ ((s.procs.getD pidx dP).is_io_bound = true ∧ rt < ts))
    (hq : ¬ ts ≤ (s.procs.getD pidx dP).time_in_current_quantum) :
    dispatch_route s pidx rt ts q =
      add_process_to_queue
        { s with
          events := Event.requeued s.current_time
            (s.procs.getD pidx dP).id q :: s.events }
        pidx q := by
  simp only [dispatch_route]
  rw [if_neg h0, if_neg hy, if_neg hq]

/-- C5: the outcome chain applied after the state update of every
dispatch (`dispatch` is by definition `dispatch_route` after
`dispatch_core`, last conjunct) applies exactly one of the four
outcomes, checked in this order: completion when the remaining burst
is 0 (whatever the quantum usage — so a process whose burst reaches 0
exactly when its quantum is exhausted is completed, not demoted), else
I/O-yield same-level re-queue, else full-quantum demotion, else
same-level re-queue.  Each case is identified by the event it logs and
by its effect on the completed counter, the queues, and for the yield
the re-arrival time. -/
theorem c5_outcome_priority (s : SimState) (pidx : Nat) (rt ts : Int)
    (q : Nat) (h : pidx < s.procs.length) :
    ((s.procs.getD pidx dP).remaining_time = 0 →
       (dispatch_route s pidx rt ts q).events
         = Event.completedE s.current_time
             (s.procs.getD pidx dP).id :: s.events ∧
       (dispatch_route s pidx rt ts q).completed = s.completed + 1 ∧
       (dispatch_route s pidx rt ts q).queues = s.queues) ∧
    ((s.procs.getD pidx dP).remaining_time ≠ 0 →
     (s.procs.getD pidx dP).is_io_bound = true → rt < ts →
       (dispatch_route s pidx rt ts q).events
         = Event.ioYield s.current_time
             (s.procs.getD pidx dP).id q :: s.events ∧
       (dispatch_route s pidx rt ts q).completed = s.completed ∧
       (dispatch_route s pidx rt ts q).queues = s.queues ∧
       ((dispatch_route s pidx rt ts q).procs.getD pidx dP).arrival_time
         = s.current_time + 10 ∧
       ((dispatch_route s pidx rt ts q).procs.getD pidx
           dP).time_in_current_quantum = 0) ∧
    ((s.procs.getD pidx dP).remaining_time ≠ 0 →
     ¬ ((s.procs.getD pidx dP).is_io_bound = true ∧ rt < ts) →
     ts ≤ (s.procs.getD pidx dP).time_in_current_quantum →
       (dispatch_route s pidx rt ts q).events
         = Event.demoted s.current_time (s.procs.getD pidx dP).id
             (if q < NUM_QUEUES - 1 then q + 1 else q) :: s.events ∧
       (dispatch_route s pidx rt ts q).completed = s.completed) ∧
    ((s.procs.getD pidx dP).remaining_time ≠ 0 →
     ¬ ((s.procs.getD pidx dP).is_io_bound = true ∧ rt < ts) →
     (s.procs.getD pidx dP).time_in_current_quantum < ts →
       (dispatch_route s pidx rt ts q).events
         = Event.requeued s.current_time
             (s.procs.getD pidx dP).id q :: s.events ∧
       (dispatch_route s pidx rt ts q).completed = s.completed) ∧
    dispatch s pidx = dispatch_route (dispatch_core s pidx) pidx
      (run_time_for (s.procs.getD pidx dP)
        ((s.queues.getD (s.procs.getD pidx dP).current_queue
            dQ).time_quantum))
      ((s.queues.getD (s.procs.getD pidx dP).current_queue
          dQ).time_quantum)
      (s.procs.getD pidx dP).current_queue := by
  refine ⟨?_, ?_, ?_, ?_, rfl⟩
  · intro h0
    rw [route_completion s pidx rt ts q h0]
    exact ⟨rfl, rfl, rfl⟩
  · intro h0 hio hlt
    rw [route_yield s pidx rt ts q h0 ⟨hio, hlt⟩]
    refine ⟨rfl, rfl, rfl, ?_, ?_⟩
    · rw [getD_set_self s.procs pidx _ dP h]
    · rw [getD_set_self s.procs pidx _ dP h]
  · intro h0 hy hq
    rw [route_demote s pidx rt ts q h0 hy hq]
    exact ⟨(add_events _ _ _).trans rfl, (add_completed _ _ _).trans rfl⟩
  · intro h0 hy hq
    rw [route_requeue s pidx rt ts q h0 hy (by omega)]
    exact ⟨(add_events _ _ _).trans rfl, (add_completed _ _ _).trans rfl⟩

/-- Closed instance of the outcome chain: the first dispatch of the
I/O-bound burst-2 process of `ps_c5w` drives its remaining burst to 0,
and the outcome applied is completion. -/
theorem c5_outcome_priority_witness :
    (dispatch_route (dispatch_core (init_state ps_c5w) 0) 0 2 10
        0).events
      = Event.completedE 2 1 ::
          (dispatch_core (init_state ps_c5w) 0).events ∧
    (dispatch_route (dispatch_core (init_state ps_c5w) 0) 0 2 10
        0).completed
      = (dispatch_core (init_state ps_c5w) 0).completed + 1 ∧
    (dispatch_route (dispatch_core (init_state ps_c5w) 0) 0 2 10
        0).queues
      = (dispatch_core (init_state ps_c5w) 0).queues := by
  have hmain := c5_outcome_priority (dispatch_core (init_state ps_c5w) 0)
    0 2 10 0 (by decide)
  have hc := hmain.1 (by decide)
  exact ⟨hc.1.trans (by decide), hc.2.1, hc.2.2⟩

theorem add_to_level0 (s : SimState) (x : Nat) (q0 q1 q2 : Queue)
    (hsh : s.queues = [q0, q1, q2])
    (hlen : q0.processes.length < MAX_PROCESSES) :
    add_process_to_queue s x 0 =
      { s with
        queues := [{ q0 with processes := q0.processes ++ [x] }, q1, q2],
        procs := s.procs.set x
          { s.procs.getD x dP with
            current_queue := 0,
            time_in_current_quantum := 0 } } := by
  unfold add_process_to_queue
  rw [hsh]
  rw [show ([q0, q1, q2].getD 0 dQ) = q0 from rfl]
  rw [if_pos hlen]
  rfl

theorem boost_add_fold (L : List Nat) (s F : SimState) (q0 q1 q2 : Queue)
    (hF : F = L.foldl (fun st i => add_process_to_queue st i 0) s)
    (hsh : s.queues = [q0, q1, q2])
    (hcap : q0.processes.length + L.length ≤ MAX_PROCESSES)
    (hval : ∀ i ∈ L, i < s.procs.length) :
    F.queues = [{ q0 with processes := q0.processes ++ L }, q1, q2] ∧
    F.procs.length = s.procs.length ∧
    F.current_time = s.current_time ∧
    F.last_boost_time = s.last_boost_time ∧
    F.completed = s.completed ∧
    F.errored = s.errored ∧
    F.events = s.events ∧
    (∀ i ∈ L, (F.procs.getD i dP).current_queue = 0 ∧
              (F.procs.getD i dP).time_in_current_quantum = 0) ∧
    (∀ j : Nat, j ∉ L → F.procs.getD j dP = s.procs.getD j dP) := by
  induction L generalizing s F q0 with
  | nil =>
      subst hF
      refine ⟨?_, rfl, rfl, rfl, rfl, rfl, rfl, ?_, ?_⟩
      · rw [hsh]; simp
      · intro i hi; cases hi
      · intro j _; rfl
  | cons x xs ih =>
      have hM : MAX_PROCESSES = 10 := rfl
      rw [hM] at hcap
      simp only [List.length_cons] at hcap
      have hlen : q0.processes.length < MAX_PROCESSES := by rw [hM]; omega
      have hxval : x < s.procs.length := hval x (List.mem_cons_self _ _)
      have hF1 : F = xs.foldl (fun st i => add_process_to_queue st i 0)
          (add_process_to_queue s x 0) := by
        rw [hF, List.foldl_cons]
      rw [add_to_level0 s x q0 q1 q2 hsh hlen] at hF1
      have hcap1 : ({ q0 with processes := q0.processes ++ [x] } :
          Queue).processes.length + xs.length ≤ MAX_PROCESSES := by
        rw [hM]; simp only [List.length_append, List.length_cons,
          List.length_nil]; omega
      have hval1 : ∀ i ∈ xs, i < (s.procs.set x
          { s.procs.getD x dP with
            current_queue := 0,
            time_in_current_quantum := 0 }).length := by
        intro i hi
        rw [List.length_set]
        exact hval i (List.mem_cons_of_mem _ hi)
      have hmain := ih _ F { q0 with processes := q0.processes ++ [x] }
        hF1 rfl hcap1 hval1
      refine ⟨?_, ?_, hmain.2.2.1, hmain.2.2.2.1, hmain.2.2.2.2.1,
        hmain.2.2.2.2.2.1, hmain.2.2.2.2.2.2.1, ?_, ?_⟩
      · rw [hmain.1]; simp
      · exact (hmain.2.1).trans (List.length_set s.procs _ _)
      · intro i hi
        rcases List.mem_cons.1 hi with hix | hixs
        · by_cases hx : i ∈ xs
          · exact hmain.2.2.2.2.2.2.2.1 i hx
          · subst hix
            have h9 := hmain.2.2.2.2.2.2.2.2 i hx
            rw [h9, getD_set_self s.procs i _ dP hxval]
            exact ⟨rfl, rfl⟩
        · exact hmain.2.2.2.2.2.2.2.1 i hixs
      · intro j hj
        have hjx : j ≠ x := fun hc => hj (hc ▸ List.mem_cons_self _ _)
        have hjxs : j ∉ xs := fun hc => hj (List.mem_cons_of_mem _ hc)
        rw [hmain.2.2.2.2.2.2.2.2 j hjxs,
          getD_set_ne s.procs x j _ dP (fun hc => hjx hc.symm)]

theorem boost_level_one (s : SimState) (q0 q1 q2 : Queue)
    (hsh : s.queues = [q0, q1, q2])
    (hcap : q0.processes.length + q1.processes.length ≤ MAX_PROCESSES)
    (hval : ∀ i ∈ q1.processes, i < s.procs.length) :
    (boost_level s 1).queues
      = [{ q0 with processes := q0.processes ++ q1.processes },
         { q1 with processes := [] }, q2] ∧
    (boost_level s 1).procs.length = s.procs.length ∧
    (boost_level s 1).current_time = s.current_time ∧
    (boost_level s 1).last_boost_time = s.last_boost_time ∧
    (boost_level s 1).completed = s.completed ∧
    (boost_level s 1).errored = s.errored ∧
    (boost_level s 1).events = s.events ∧
    (∀ i ∈ q1.processes,
      ((boost_level s 1).procs.getD i dP).current_queue = 0 ∧
      ((boost_level s 1).procs.getD i dP).time_in_current_quantum = 0) ∧
    (∀ j : Nat, j ∉ q1.processes →
      (boost_level s 1).procs.getD j dP = s.procs.getD j dP) := by
  have hitems : (s.queues.getD 1 dQ).processes = q1.processes := by
    rw [hsh]; rfl
  have hmain := boost_add_fold q1.processes s
    ((s.queues.getD 1 dQ).processes.foldl
      (fun st i => add_process_to_queue st i 0) s) q0 q1 q2
    (by rw [hitems]) hsh hcap hval
  refine ⟨?_, hmain.2.1, hmain.2.2.1, hmain.2.2.2.1, hmain.2.2.2.2.1,
    hmain.2.2.2.2.2.1, hmain.2.2.2.2.2.2.1, hmain.2.2.2.2.2.2.2.1,
    hmain.2.2.2.2.2.2.2.2⟩
  show (((s.queues.getD 1 dQ).processes.foldl
      (fun st i => add_process_to_queue st i 0) s).queues.set 1
      { ((s.queues.getD 1 dQ).processes.foldl
          (fun st i => add_process_to_queue st i 0) s).queues.getD 1 dQ
        with processes := [] })
    = [{ q0 with processes := q0.processes ++ q1.processes },
       { q1 with processes := [] }, q2]
  rw [hmain.1]
  rfl

theorem boost_level_two (s : SimState) (q0 q1 q2 : Queue)
    (hsh : s.queues = [q0, q1, q2])
    (hcap : q0.processes.length + q2.processes.length ≤ MAX_PROCESSES)
    (hval : ∀ i ∈ q2.processes, i < s.procs.length) :
    (boost_level s 2).queues
      = [{ q0 with processes := q0.processes ++ q2.processes }, q1,
         { q2 with processes := [] }] ∧
    (boost_level s 2).procs.length = s.procs.length ∧
    (boost_level s 2).current_time = s.current_time ∧
    (boost_level s 2).last_boost_time = s.last_boost_time ∧
    (boost_level s 2).completed = s.completed ∧
    (boost_level s 2).errored = s.errored ∧
    (boost_level s 2).events = s.events ∧
    (∀ i ∈ q2.processes,
      ((boost_level s 2).procs.getD i dP).current_queue = 0 ∧
      ((boost_level s 2).procs.getD i dP).time_in_current_quantum = 0) ∧
    (∀ j : Nat, j ∉ q2.processes →
      (boost_level s 2).procs.getD j dP = s.procs.getD j dP) := by
  have hitems : (s.queues.getD 2 dQ).processes = q2.processes := by
    rw [hsh]; rfl
  have hmain := boost_add_fold q2.processes s
    ((s.queues.getD 2 dQ).processes.foldl
      (fun st i => add_process_to_queue st i 0) s) q0 q1 q2
    (by rw [hitems]) hsh hcap hval
  refine ⟨?_, hmain.2.1, hmain.2.2.1, hmain.2.2.2.1, hmain.2.2.2.2.1,
    hmain.2.2.2.2.2.1, hmain.2.2.2.2.2.2.1, hmain.2.2.2.2.2.2.2.1,
    hmain.2.2.2.2.2.2.2.2⟩
  show (((s.queues.getD 2 dQ).processes.foldl
      (fun st i => add_process_to_queue st i 0) s).queues.set 2
      { ((s.queues.getD 2 dQ).processes.foldl
          (fun st i => add_process_to_queue st i 0) s).queues.getD 2 dQ
        with processes := [] })
    = [{ q0 with processes := q0.processes ++ q2.processes }, q1,
       { q2 with processes := [] }]
  rw [hmain.1]
  rfl

theorem maybe_boost_eq (s : SimState)
    (hdue : boost_interval ≤ s.current_time - s.last_boost_time) :
    maybe_boost s =
      { boost_level (boost_level
          { s with events := Event.boostE s.current_time :: s.events } 1) 2
        with
        last_boost_time :=
          (boost_level (boost_level
            { s with events := Event.boostE s.current_time :: s.events }
              1) 2).current_time } := by
  unfold maybe_boost
  rw [if_pos hdue]
  rfl

/-- C6 (amended): before a dispatch decision at which `current_time -
last_boost_time ≥ boost_interval`, provided the total number of queued
references fits the level-0 capacity (at most `MAX_PROCESSES`), every
process reference in every level above 0 is moved into the level-0
FIFO, preserving relative order level-by-level; those levels are
cleared and `last_boost_time` is set to `current_time`.  Each moved
process record then carries queue level 0 with quantum usage 0, so its
next dispatch reads the level-0 quantum.  (Without the capacity
proviso the claim fails: see the counterexample, where references
meeting a full level 0 are silently dropped.) -/
theorem c6_boost_moves_all_within_capacity (s : SimState)
    (q0 q1 q2 : Queue)
    (hsh : s.queues = [q0, q1, q2])
    (hdue : boost_interval ≤ s.current_time - s.last_boost_time)
    (hcap : q0.processes.length + q1.processes.length
        + q2.processes.length ≤ MAX_PROCESSES)
    (hval : ∀ i ∈ q1.processes ++ q2.processes, i < s.procs.length) :
    (maybe_boost s).queues
      = [{ q0 with processes :=
             q0.processes ++ q1.processes ++ q2.processes },
         { q1 with processes := [] }, { q2 with processes := [] }] ∧
    (maybe_boost s).last_boost_time = s.current_time ∧
    (maybe_boost s).current_time = s.current_time ∧
    (∀ i ∈ q1.processes ++ q2.processes,
      ((maybe_boost s).procs.getD i dP).current_queue = 0 ∧
      ((maybe_boost s).procs.getD i dP).time_in_current_quantum = 0 ∧
      ((maybe_boost s).queues.getD
          ((maybe_boost s).procs.getD i dP).current_queue dQ).time_quantum
        = q0.time_quantum) := by
  have hM : MAX_PROCESSES = 10 := rfl
  have hsh0 : ({ s with events := Event.boostE s.current_time :: s.events }
      : SimState).queues = [q0, q1, q2] := hsh
  have hcap0 : q0.processes.length + q1.processes.length
      ≤ MAX_PROCESSES := by
    rw [hM] at hcap ⊢; omega
  have hval0 : ∀ i ∈ q1.processes,
      i < ({ s with events := Event.boostE s.current_time :: s.events }
        : SimState).procs.length :=
    fun i hi => hval i (List.mem_append_left _ hi)
  have hb1 := boost_level_one
    { s with events := Event.boostE s.current_time :: s.events }
    q0 q1 q2 hsh0 hcap0 hval0
  have hcap1 : ({ q0 with processes := q0.processes ++ q1.processes }
      : Queue).processes.length + q2.processes.length
      ≤ MAX_PROCESSES := by
    rw [hM] at hcap ⊢
    simp only [List.length_append]
    omega
  have hval1 : ∀ i ∈ q2.processes,
      i < (boost_level
        { s with events := Event.boostE s.current_time :: s.events }
        1).procs.length := by
    intro i hi
    rw [hb1.2.1]
    exact hval i (List.mem_append_right _ hi)
  have hb2 := boost_level_two
    (boost_level
      { s with events := Event.boostE s.current_time :: s.events } 1)
    { q0 with processes := q0.processes ++ q1.processes }
    { q1 with processes := [] } q2 hb1.1 hcap1 hval1
  rw [maybe_boost_eq s hdue]
  refine ⟨?_, ?_, ?_, ?_⟩
  · exact hb2.1
  · exact (hb2.2.2.1).trans (hb1.2.2.1)
  · exact (hb2.2.2.1).trans (hb1.2.2.1)
  · intro i hi
    have hmove : ((boost_level (boost_level
        { s with events := Event.boostE s.current_time :: s.events } 1)
          2).procs.getD i dP).current_queue = 0 ∧
        ((boost_level (boost_level
          { s with events := Event.boostE s.current_time :: s.events } 1)
            2).procs.getD i dP).time_in_current_quantum = 0 := by
      rcases List.mem_append.1 hi with h1 | h2
      · by_cases hq2 : i ∈ q2.processes
        · exact hb2.2.2.2.2.2.2.2.1 i hq2
        · rw [hb2.2.2.2.2.2.2.2.2 i hq2]
          exact hb1.2.2.2.2.2.2.2.1 i h1
      · exact hb2.2.2.2.2.2.2.2.1 i h2
    refine ⟨hmove.1, hmove.2, ?_⟩
    show ((boost_level (boost_level
        { s with events := Event.boostE s.current_time :: s.events } 1)
          2).queues.getD
        ((boost_level (boost_level
          { s with events := Event.boostE s.current_time :: s.events } 1)
            2).procs.getD i dP).current_queue dQ).time_quantum
      = q0.time_quantum
    rw [hmove.1, hb2.1]
    rfl

/-- Closed instance of the boost theorem on `c6_witness_state`: both
queued references are moved to level 0 and see the level-0 quantum. -/
theorem c6_boost_moves_all_within_capacity_witness :
    (maybe_boost c6_witness_state).queues
      = [{ processes := ([] : List Nat) ++ [0] ++ [1],
           time_quantum := 10 },
         { processes := [], time_quantum := 20 },
         { processes := [], time_quantum := 40 }] ∧
    (maybe_boost c6_witness_state).last_boost_time = 60 ∧
    (maybe_boost c6_witness_state).current_time = 60 ∧
    (∀ i ∈ ([0] : List Nat) ++ [1],
      ((maybe_boost c6_witness_state).procs.getD i dP).current_queue
        = 0 ∧
      ((maybe_boost c6_witness_state).procs.getD i
          dP).time_in_current_quantum = 0 ∧
      ((maybe_boost c6_witness_state).queues.getD
          ((maybe_boost c6_witness_state).procs.getD i
            dP).current_queue dQ).time_quantum = 10) :=
  c6_boost_moves_all_within_capacity c6_witness_state
    { processes := [], time_quantum := 10 }
    { processes := [0], time_quantum := 20 }
    { processes := [1], time_quantum := 40 }
    rfl (by decide) (by decide) (by decide)

theorem na_fold_spec (t : Int) (ht : 0 ≤ t) (l : List Process) :
    ∀ acc : Int, (acc = -1 ∨ t < acc) →
    ((l.foldl (na_step t) acc = acc ∨
       ∃ p ∈ l, Qual t p ∧ l.foldl (na_step t) acc = p.arrival_time) ∧
     (∀ q ∈ l, Qual t q → l.foldl (na_step t) acc ≤ q.arrival_time) ∧
     (((∃ p ∈ l, Qual t p) ∨ acc ≠ -1) → t < l.foldl (na_step t) acc) ∧
     (acc ≠ -1 → l.foldl (na_step t) acc ≤ acc)) := by
  induction l with
  | nil =>
      intro acc hacc
      refine ⟨Or.inl rfl, ?_, ?_, fun _ => le_refl acc⟩
      · intro q hq; cases hq
      · intro hh
        rcases hh with ⟨p, hp, _⟩ | hne
        · cases hp
        · rcases hacc with h1 | h2
          · exact absurd h1 hne
          · exact h2
  | cons x xs ih =>
      intro acc hacc
      by_cases hqx : Qual t x
      · by_cases hrepl : acc = -1 ∨ x.arrival_time < acc
        · have hstep : na_step t acc x = x.arrival_time := by
            unfold na_step
            rw [if_pos (show 0 < x.remaining_time ∧ t < x.arrival_time
              from hqx), if_pos hrepl]
          have harr : t < x.arrival_time := hqx.2
          have hmain := ih x.arrival_time (Or.inr harr)
          rw [List.foldl_cons, hstep]
          refine ⟨?_, ?_, ?_, ?_⟩
          · rcases hmain.1 with h | ⟨p, hp, hq, he⟩
            · exact Or.inr ⟨x, List.mem_cons_self _ _, hqx, h⟩
            · exact Or.inr ⟨p, List.mem_cons_of_mem _ hp, hq, he⟩
          · intro q hq hqual
            rcases List.mem_cons.1 hq with h1 | h2
            · subst h1
              exact hmain.2.2.2 (by omega)
            · exact hmain.2.1 q h2 hqual
          · intro _
            exact hmain.2.2.1 (Or.inr (by omega))
          · intro hne
            have h1 := hmain.2.2.2 (by omega)
            rcases hrepl with h2 | h2
            · exact absurd h2 hne
            · omega
        · have hstep : na_step t acc x = acc := by
            unfold na_step
            rw [if_pos (show 0 < x.remaining_time ∧ t < x.arrival_time
              from hqx), if_neg hrepl]
          push_neg at hrepl
          have hmain := ih acc hacc
          rw [List.foldl_cons, hstep]
          refine ⟨?_, ?_, ?_, hmain.2.2.2⟩
          · rcases hmain.1 with h | ⟨p, hp, hq, he⟩
            · exact Or.inl h
            · exact Or.inr ⟨p, List.mem_cons_of_mem _ hp, hq, he⟩
          · intro q hq hqual
            rcases List.mem_cons.1 hq with h1 | h2
            · subst h1
              have h3 := hmain.2.2.2 hrepl.1
              omega
            · exact hmain.2.1 q h2 hqual
          · intro _
            exact hmain.2.2.1 (Or.inr hrepl.1)
      · have hstep : na_step t acc x = acc := by
          unfold na_step
          rw [if_neg (show ¬ (0 < x.remaining_time ∧ t < x.arrival_time)
            from hqx)]
        have hmain := ih acc hacc
        rw [List.foldl_cons, hstep]
        refine ⟨?_, ?_, ?_, hmain.2.2.2⟩
        · rcases hmain.1 with h | ⟨p, hp, hq, he⟩
          · exact Or.inl h
          · exact Or.inr ⟨p, List.mem_cons_of_mem _ hp, hq, he⟩
        · intro q hq hqual
          rcases List.mem_cons.1 hq with h1 | h2
          · subst h1; exact absurd hqual hqx
          · exact hmain.2.1 q h2 hqual
        · intro hh
          rcases hh with ⟨p, hp, hq⟩ | hne
          · rcases List.mem_cons.1 hp with h1 | h2
            · subst h1; exact absurd hq hqx
            · exact hmain.2.2.1 (Or.inl ⟨p, h2, hq⟩)
          · exact hmain.2.2.1 (Or.inr hne)

theorem idle_advance (s : SimState) (ht : 0 ≤ s.current_time)
    (hex : ∃ p ∈ s.procs, Qual s.current_time p) :
    (idle_step s).errored = s.errored ∧
    ∃ p ∈ s.procs, Qual s.current_time p ∧
      (idle_step s).current_time = p.arrival_time ∧
      ∀ q ∈ s.procs, Qual s.current_time q →
        p.arrival_time ≤ q.arrival_time := by
  have hspec := na_fold_spec s.current_time ht s.procs (-1) (Or.inl rfl)
  have hne : find_next_arrival s ≠ -1 := by
    have h3 := hspec.2.2.1 (Or.inl hex)
    unfold find_next_arrival
    omega
  constructor
  · unfold idle_step
    rw [if_neg hne]
  · rcases hspec.1 with heq | ⟨p, hp, hq, heq⟩
    · exact absurd heq hne
    · refine ⟨p, hp, hq, ?_, ?_⟩
      · unfold idle_step
        rw [if_neg hne]
        exact heq
      · intro q hq2 hqual
        have h4 := hspec.2.1 q hq2 hqual
        omega

theorem idle_error (s : SimState) (ht : 0 ≤ s.current_time)
    (hnex : ¬ ∃ p ∈ s.procs, Qual s.current_time p) :
    (idle_step s).errored = true := by
  have hspec := na_fold_spec s.current_time ht s.procs (-1) (Or.inl rfl)
  have heq : find_next_arrival s = -1 := by
    rcases hspec.1 with h | ⟨p, hp, hq, _⟩
    · exact h
    · exact absurd ⟨p, hp, hq⟩ hnex
  unfold idle_step
  rw [if_pos heq]

theorem sim_halt (m : Nat) (s : SimState) (he : s.errored = true) :
    sim_loop m s = s := by
  induction m with
  | zero => rfl
  | succ n ih =>
      show sim_step (sim_loop n s) = s
      rw [ih]
      unfold sim_step
      rw [if_neg]
      intro hc
      rw [he] at hc
      exact Bool.noConfusion hc.2

theorem check_arrivals_time (s : SimState) :
    (check_arrivals s).current_time = s.current_time := by
  unfold check_arrivals
  refine foldl_preserves _ SimState.current_time _ ?_ s
  intro st i _
  show (if (st.procs.getD i dP).arrival_time = st.current_time then
      add_process_to_queue
        { st with events :=
            Event.arrives st.current_time (st.procs.getD i dP).id
              :: st.events } i 0
    else st).current_time = st.current_time
  split
  · exact add_current_time _ _ _
  · rfl

theorem boost_level_time (s : SimState) (q : Nat) :
    (boost_level s q).current_time = s.current_time := by
  show ((s.queues.getD q dQ).processes.foldl
      (fun st i => add_process_to_queue st i 0) s).current_time
    = s.current_time
  exact foldl_preserves _ SimState.current_time _
    (fun st i _ => add_current_time st i 0) s

theorem maybe_boost_time (s : SimState) :
    (maybe_boost s).current_time = s.current_time := by
  unfold maybe_boost
  split
  · show (boost_level (boost_level
      { s with events := Event.boostE s.current_time :: s.events } 1)
        2).current_time = s.current_time
    rw [boost_level_time, boost_level_time]
  · rfl

theorem get_next_time (s : SimState) :
    (get_next_process s).2.current_time = s.current_time := by
  unfold get_next_process
  split
  · exact maybe_boost_time s
  · split
    · exact maybe_boost_time s
    · exact maybe_boost_time s

theorem loop_iter_idle (s : SimState)
    (hnone : (get_next_process (check_arrivals s)).1 = none) :
    loop_iter s = idle_step (get_next_process (check_arrivals s)).2 := by
  have hpair : get_next_process (check_arrivals s)
      = (none, (get_next_process (check_arrivals s)).2) := by
    rw [← hnone]
  unfold loop_iter
  rw [hpair]

/-- C7: when the arrival scan and the queue scan find nothing to run
(`get_next_process` returns none), the iteration is the idle branch; if
some unfinished process has a strictly future arrival time the clock is
advanced exactly to the minimum such arrival time (and no error is
flagged); if none has, the run is flagged as the fatal `Error: No
process to run but not all completed` break and the loop does nothing
with any amount of remaining fuel, rather than looping forever. -/
theorem c7_idle_handling (s : SimState)
    (hnone : (get_next_process (check_arrivals s)).1 = none)
    (ht : 0 ≤ s.current_time) :
    loop_iter s = idle_step (get_next_process (check_arrivals s)).2 ∧
    ((∃ p ∈ (get_next_process (check_arrivals s)).2.procs,
        Qual (get_next_process (check_arrivals s)).2.current_time p) →
      (idle_step (get_next_process (check_arrivals s)).2).errored
        = (get_next_process (check_arrivals s)).2.errored ∧
      ∃ p ∈ (get_next_process (check_arrivals s)).2.procs,
        Qual (get_next_process (check_arrivals s)).2.current_time p ∧
        (idle_step (get_next_process (check_arrivals s)).2).current_time
          = p.arrival_time ∧
        ∀ q ∈ (get_next_process (check_arrivals s)).2.procs,
          Qual (get_next_process (check_arrivals s)).2.current_time q →
          p.arrival_time ≤ q.arrival_time) ∧
    ((¬ ∃ p ∈ (get_next_process (check_arrivals s)).2.procs,
        Qual (get_next_process (check_arrivals s)).2.current_time p) →
      (idle_step (get_next_process (check_arrivals s)).2).errored
        = true ∧
      ∀ m, sim_loop m
          (idle_step (get_next_process (check_arrivals s)).2)
        = idle_step (get_next_process (check_arrivals s)).2) := by
  have ht2 : 0 ≤ (get_next_process (check_arrivals s)).2.current_time := by
    rw [get_next_time, check_arrivals_time]
    exact ht
  refine ⟨loop_iter_idle s hnone, ?_, ?_⟩
  · intro hex
    exact idle_advance (get_next_process (check_arrivals s)).2 ht2 hex
  · intro hnex
    have herr := idle_error (get_next_process (check_arrivals s)).2
      ht2 hnex
    exact ⟨herr, fun m => sim_halt m _ herr⟩

/-- Closed instance of the idle handling on `c7_witness_state` (empty
queues, one process arriving at time 5): the iteration is the idle
branch and the clock jumps to 5. -/
theorem c7_idle_handling_witness :
    loop_iter c7_witness_state
      = idle_step (get_next_process (check_arrivals c7_witness_state)).2 ∧
    (idle_step (get_next_process
        (check_arrivals c7_witness_state)).2).current_time = 5 := by
  have h := c7_idle_handling c7_witness_state (by decide) (by decide)
  refine ⟨h.1, ?_⟩
  have h2 := h.2.1 ⟨{ mkP 1 5 3 false with remaining_time := 3 },
    by decide, by decide, by decide⟩
  obtain ⟨-, p, hp, -, heq, -⟩ := h2
  rw [heq]
  have hl : (get_next_process (check_arrivals c7_witness_state)).2.procs
      = [{ mkP 1 5 3 false with remaining_time := 3 }] := by decide
  rw [hl] at hp
  have hpe : p = { mkP 1 5 3 false with remaining_time := 3 } :=
    List.mem_singleton.1 hp
  rw [hpe]
  decide

theorem getD_default {α : Type} (l : List α) (i : Nat) (d : α)
    (h : l.length ≤ i) : l.getD i d = d := by
  rw [List.getD_eq_getElem?_getD, List.getElem?_eq_none h]
  rfl

theorem quantumOf_cases (l : Nat) :
    quantumOf l = 10 ∨ quantumOf l = 20 ∨ quantumOf l = 40 ∨
      quantumOf l = 0 := by
  rcases l with _ | _ | _ | n
  · exact Or.inl rfl
  · exact Or.inr (Or.inl rfl)
  · exact Or.inr (Or.inr (Or.inl rfl))
  · exact Or.inr (Or.inr (Or.inr rfl))

theorem quantumOf_nonneg (l : Nat) : 0 ≤ quantumOf l := by
  rcases quantumOf_cases l with h | h | h | h <;> rw [h] <;> decide

theorem qshape_quantum (s : SimState) (hq : QShape s) (l : Nat) :
    (s.queues.getD l dQ).time_quantum = quantumOf l := by
  obtain ⟨l0, l1, l2, hsh⟩ := hq
  rw [hsh]
  rcases l with _ | _ | _ | n <;> rfl

theorem run_time_bounds (p : Process) (ts : Int)
    (h0 : 0 ≤ p.remaining_time)
    (hts : ts = quantumOf p.current_queue)
    (hd : p.is_io_bound = false → p.time_in_current_quantum ≤ ts) :
    0 ≤ run_time_for p ts ∧ run_time_for p ts ≤ p.remaining_time := by
  rw [run_time_for_min]
  split_ifs with h
  · rw [hts]
    rcases quantumOf_cases p.current_queue with h1 | h1 | h1 | h1
    · rw [h1, show (10 : Int) / 5 = 2 from by decide]
      constructor <;> omega
    · rw [h1, show (20 : Int) / 5 = 4 from by decide]
      constructor <;> omega
    · rw [h1, show (40 : Int) / 5 = 8 from by decide]
      constructor <;> omega
    · rw [h1, show (0 : Int) / 5 = 0 from by decide]
      constructor <;> omega
  · have hio : p.is_io_bound = false := by
      cases hx : p.is_io_bound
      · rfl
      · exact absurd hx h
    have htq := hd hio
    constructor <;> omega

theorem qshape_add (s : SimState) (pidx level : Nat) (h : QShape s) :
    QShape (add_process_to_queue s pidx level) := by
  simp only [add_process_to_queue]
  split
  · obtain ⟨l0, l1, l2, hsh⟩ := h
    rcases level with _ | _ | _ | n
    · exact ⟨l0 ++ [pidx], l1, l2, by rw [hsh]; rfl⟩
    · exact ⟨l0, l1 ++ [pidx], l2, by rw [hsh]; rfl⟩
    · exact ⟨l0, l1, l2 ++ [pidx], by rw [hsh]; rfl⟩
    · exact ⟨l0, l1, l2, by rw [hsh]; rfl⟩
  · exact h

theorem rem_bounds_add (s : SimState) (pidx level : Nat)
    (h : RemBounds s) : RemBounds (add_process_to_queue s pidx level) := by
  simp only [add_process_to_queue]
  split
  · intro p hp
    rcases List.mem_or_eq_of_mem_set hp with hmem | heq
    · exact h p hmem
    · subst heq
      by_cases hlt : pidx < s.procs.length
      · have hb := h _ (getD_mem s.procs pidx dP hlt)
        exact ⟨hb.1, hb.2⟩
      · show 0 ≤ (s.procs.getD pidx dP).remaining_time ∧
          (s.procs.getD pidx dP).remaining_time
            ≤ (s.procs.getD pidx dP).burst_time
        rw [getD_default s.procs pidx dP (Nat.le_of_not_lt hlt)]
        exact ⟨le_refl 0, le_refl 0⟩
  · exact h

theorem quantum_usage_add (s : SimState) (pidx level : Nat)
    (h : QuantumUsage s) :
    QuantumUsage (add_process_to_queue s pidx level) := by
  simp only [add_process_to_queue]
  split
  · intro qu hqu i hi hio
    by_cases hip : i = pidx
    · subst hip
      by_cases hlen : i < s.procs.length
      · show ((s.procs.set i _).getD i dP).time_in_current_quantum
          ≤ quantumOf ((s.procs.set i _).getD i dP).current_queue
        rw [getD_set_self s.procs i _ dP hlen]
        exact quantumOf_nonneg level
      · show ((s.procs.set i _).getD i dP).time_in_current_quantum
          ≤ quantumOf ((s.procs.set i _).getD i dP).current_queue
        rw [getD_default (s.procs.set i _) i dP
          (by rw [List.length_set]; omega)]
        exact quantumOf_nonneg 0
    · have hne : pidx ≠ i := fun hc => hip hc.symm
      show ((s.procs.set pidx _).getD i dP).time_in_current_quantum
        ≤ quantumOf ((s.procs.set pidx _).getD i dP).current_queue
      rw [getD_set_ne s.procs pidx i _ dP hne]
      have hio2 : (s.procs.getD i dP).is_io_bound = false := by
        have h2 : ((s.procs.set pidx
            { s.procs.getD pidx dP with
              current_queue := level,
              time_in_current_quantum := 0 }).getD i
            dP).is_io_bound = false := hio
        rw [getD_set_ne s.procs pidx i _ dP hne] at h2
        exact h2
      rcases List.mem_or_eq_of_mem_set hqu with hq | hq
      · exact h qu hq i hi hio2
      · subst hq
        rcases List.mem_append.1 hi with hiold | hiu
        · by_cases hql : level < s.queues.length
          · exact h _ (getD_mem s.queues level dQ hql) i hiold hio2
          · rw [getD_default s.queues level dQ
              (Nat.le_of_not_lt hql)] at hiold
            cases hiold
        · exact absurd (List.mem_singleton.1 hiu) hip
  · exact h

theorem siminv_add (s : SimState) (pidx level : Nat) (h : SimInv s) :
    SimInv (add_process_to_queue s pidx level) :=
  ⟨qshape_add s pidx level h.1, rem_bounds_add s pidx level h.2.1,
   quantum_usage_add s pidx level h.2.2⟩

theorem siminv_set_queue (s : SimState) (q : Nat) (l : List Nat)
    (hsub : ∀ i ∈ l, i ∈ (s.queues.getD q dQ).processes)
    (h : SimInv s) :
    SimInv { s with
             queues := s.queues.set q
               { s.queues.getD q dQ with processes := l } } := by
  obtain ⟨hQ, hR, hU⟩ := h
  refine ⟨?_, hR, ?_⟩
  · obtain ⟨l0, l1, l2, hsh⟩ := hQ
    rcases q with _ | _ | _ | n
    · exact ⟨l, l1, l2, by rw [hsh]; rfl⟩
    · exact ⟨l0, l, l2, by rw [hsh]; rfl⟩
    · exact ⟨l0, l1, l, by rw [hsh]; rfl⟩
    · exact ⟨l0, l1, l2, by rw [hsh]; rfl⟩
  · intro qu hqu i hi hio
    rcases List.mem_or_eq_of_mem_set hqu with hq | hq
    · exact hU qu hq i hi hio
    · subst hq
      have hiorig := hsub i hi
      by_cases hql : q < s.queues.length
      · exact hU _ (getD_mem s.queues q dQ hql) i hiorig hio
      · rw [getD_default s.queues q dQ (Nat.le_of_not_lt hql)] at hiorig
        cases hiorig

theorem siminv_check_arrivals (s : SimState) (h : SimInv s) :
    SimInv (check_arrivals s) := by
  unfold check_arrivals
  refine foldl_inv _ SimInv _ ?_ s h
  intro st i _ hP
  show SimInv (if (st.procs.getD i dP).arrival_time = st.current_time then
      add_process_to_queue
        { st with events :=
            Event.arrives st.current_time (st.procs.getD i dP).id
              :: st.events } i 0
    else st)
  split
  · exact siminv_add _ i 0 hP
  · exact hP

theorem siminv_boost_level (s : SimState) (q : Nat) (h : SimInv s) :
    SimInv (boost_level s q) := by
  have hF : SimInv ((s.queues.getD q dQ).processes.foldl
      (fun st i => add_process_to_queue st i 0) s) := by
    refine foldl_inv _ SimInv _ ?_ s h
    intro st i _ hP
    exact siminv_add st i 0 hP
  show SimInv
    { (s.queues.getD q dQ).processes.foldl
        (fun st i => add_process_to_queue st i 0) s with
      queues := ((s.queues.getD q dQ).processes.foldl
          (fun st i => add_process_to_queue st i 0) s).queues.set q
                  { ((s.queues.getD q dQ).processes.foldl
                      (fun st i => add_process_to_queue st i 0)
                        s).queues.getD q dQ
                    with processes := [] } }
  exact siminv_set_queue _ q [] (fun i hi => absurd hi
    (List.not_mem_nil i)) hF

theorem siminv_maybe_boost (s : SimState) (h : SimInv s) :
    SimInv (maybe_boost s) := by
  unfold maybe_boost
  split
  · show SimInv { boost_level (boost_level
      { s with events := Event.boostE s.current_time :: s.events } 1) 2
      with
      last_boost_time :=
        (boost_level (boost_level
          { s with events := Event.boostE s.current_time :: s.events }
            1) 2).current_time }
    have h0 : SimInv
        ({ s with events := Event.boostE s.current_time :: s.events }
          : SimState) := h
    have h1 := siminv_boost_level _ 1 h0
    have h2 := siminv_boost_level _ 2 h1
    exact h2
  · exact h

theorem get_next_spec (s : SimState) (h : SimInv s) :
    SimInv (get_next_process s).2 ∧
    ∀ pidx, (get_next_process s).1 = some pidx →
      DispOk (get_next_process s).2 pidx := by
  have hb := siminv_maybe_boost s h
  unfold get_next_process
  split
  · exact ⟨hb, fun pidx hc => Option.noConfusion hc⟩
  · rename_i q hfn
    split
    · exact ⟨hb, fun pidx hc => Option.noConfusion hc⟩
    · rename_i pidx rest heq
      have hql : q < (maybe_boost s).queues.length := by
        by_contra hc
        rw [getD_default (maybe_boost s).queues q dQ
          (Nat.le_of_not_lt hc)] at heq
        cases heq
      have hmem : pidx ∈ ((maybe_boost s).queues.getD q dQ).processes := by
        rw [heq]
        exact List.mem_cons_self _ _
      constructor
      · show SimInv
          { maybe_boost s with
            queues := (maybe_boost s).queues.set q
              { (maybe_boost s).queues.getD q dQ with
                processes := rest } }
        refine siminv_set_queue (maybe_boost s) q rest ?_ hb
        intro i hi
        rw [heq]
        exact List.mem_cons_of_mem _ hi
      · intro pidx2 hp2
        have hpe : pidx2 = pidx := by
          cases hp2
          rfl
        subst hpe
        intro hio
        exact hb.2.2 _ (getD_mem (maybe_boost s).queues q dQ hql)
          pidx2 hmem hio

theorem set_oob {α : Type} (l : List α) (i : Nat) (a : α)
    (h : l.length ≤ i) : l.set i a = l := by
  induction l generalizing i with
  | nil => rfl
  | cons x xs ih =>
      cases i with
      | zero => simp at h
      | succ n =>
          show x :: xs.set n a = x :: xs
          rw [ih n (by simpa using h)]

theorem run_time_cpu_le (p : Process) (ts : Int)
    (hio : p.is_io_bound = false) :
    run_time_for p ts ≤ ts - p.time_in_current_quantum := by
  unfold run_time_for
  rw [if_neg (by rw [hio]; exact fun hc => Bool.noConfusion hc)]
  split_ifs <;> omega

theorem siminv_set_proc_preserve (s : SimState) (pidx : Nat)
    (pnew : Process)
    (hrem : pnew.remaining_time = (s.procs.getD pidx dP).remaining_time)
    (hburst : pnew.burst_time = (s.procs.getD pidx dP).burst_time)
    (htiq : (pnew.is_io_bound = false →
        pnew.time_in_current_quantum ≤ quantumOf pnew.current_queue) ∨
      (pnew.is_io_bound = (s.procs.getD pidx dP).is_io_bound ∧
       pnew.time_in_current_quantum
         = (s.procs.getD pidx dP).time_in_current_quantum ∧
       pnew.current_queue = (s.procs.getD pidx dP).current_queue))
    (h : SimInv s) :
    SimInv { s with procs := s.procs.set pidx pnew } := by
  obtain ⟨hQ, hR, hU⟩ := h
  refine ⟨hQ, ?_, ?_⟩
  · intro p hp
    rcases List.mem_or_eq_of_mem_set hp with hm | heq2
    · exact hR p hm
    · subst heq2
      rw [hrem, hburst]
      by_cases hlt : pidx < s.procs.length
      · exact hR _ (getD_mem s.procs pidx dP hlt)
      · rw [getD_default s.procs pidx dP (Nat.le_of_not_lt hlt)]
        exact ⟨le_refl 0, le_refl 0⟩
  · intro qu hqu i hi hio
    by_cases hip : i = pidx
    · subst hip
      by_cases hlen : i < s.procs.length
      · have hgoal : ((s.procs.set i pnew).getD i dP) = pnew :=
          getD_set_self s.procs i pnew dP hlen
        show ((s.procs.set i pnew).getD i dP).time_in_current_quantum
          ≤ quantumOf ((s.procs.set i pnew).getD i dP).current_queue
        rw [hgoal]
        have hio2 : pnew.is_io_bound = false := by
          have h2 : ((s.procs.set i pnew).getD i dP).is_io_bound
              = false := hio
          rw [hgoal] at h2
          exact h2
        rcases htiq with hL | ⟨hioeq, htiqeq, hcqeq⟩
        · exact hL hio2
        · rw [htiqeq, hcqeq]
          have hqu2 : qu ∈ s.queues := hqu
          have hioOld : (s.procs.getD i dP).is_io_bound = false := by
            rw [← hioeq]
            exact hio2
          exact hU qu hqu2 i hi hioOld
      · show ((s.procs.set i pnew).getD i dP).time_in_current_quantum
          ≤ quantumOf ((s.procs.set i pnew).getD i dP).current_queue
        rw [getD_default (s.procs.set i pnew) i dP
          (by rw [List.length_set]; omega)]
        exact quantumOf_nonneg 0
    · have hne : pidx ≠ i := fun hc => hip hc.symm
      show ((s.procs.set pidx pnew).getD i dP).time_in_current_quantum
        ≤ quantumOf ((s.procs.set pidx pnew).getD i dP).current_queue
      rw [getD_set_ne s.procs pidx i pnew dP hne]
      have hio2 : (s.procs.getD i dP).is_io_bound = false := by
        have h2 : ((s.procs.set pidx pnew).getD i dP).is_io_bound
            = false := hio
        rw [getD_set_ne s.procs pidx i pnew dP hne] at h2
        exact h2
      have hqu2 : qu ∈ s.queues := hqu
      exact hU qu hqu2 i hi hio2

theorem siminv_dispatch_core (s : SimState) (pidx : Nat) (h : SimInv s)
    (hd : DispOk s pidx) : SimInv (dispatch_core s pidx) := by
  obtain ⟨hQ, hR, hU⟩ := h
  have hts : (s.queues.getD (s.procs.getD pidx dP).current_queue
      dQ).time_quantum = quantumOf (s.procs.getD pidx dP).current_queue :=
    qshape_quantum s hQ _
  by_cases hlen : pidx < s.procs.length
  · have h0 : 0 ≤ (s.procs.getD pidx dP).remaining_time :=
      (hR _ (getD_mem s.procs pidx dP hlen)).1
    have hb0 : (s.procs.getD pidx dP).remaining_time
        ≤ (s.procs.getD pidx dP).burst_time :=
      (hR _ (getD_mem s.procs pidx dP hlen)).2
    have hrtb := run_time_bounds (s.procs.getD pidx dP) _ h0 hts
      (fun hio => by rw [hts]; exact hd hio)
    have hre := core_getD s pidx hlen
    have hfe := core_getD_fields s pidx hlen
    have htiqe : ((dispatch_core s pidx).procs.getD pidx
        dP).time_in_current_quantum
        = (s.procs.getD pidx dP).time_in_current_quantum
          + run_time_for (s.procs.getD pidx dP)
            ((s.queues.getD (s.procs.getD pidx dP).current_queue
              dQ).time_quantum) :=
      congrArg Process.time_in_current_quantum hre
    have hreme : ((dispatch_core s pidx).procs.getD pidx
        dP).remaining_time
        = (s.procs.getD pidx dP).remaining_time
          - run_time_for (s.procs.getD pidx dP)
            ((s.queues.getD (s.procs.getD pidx dP).current_queue
              dQ).time_quantum) :=
      congrArg Process.remaining_time hre
    refine ⟨hQ, ?_, ?_⟩
    · intro p hp
      rcases List.mem_or_eq_of_mem_set hp with hm | heq2
      · exact hR p hm
      · have hp2 : p = (dispatch_core s pidx).procs.getD pidx dP := by
          rw [hre]
          exact heq2
        subst hp2
        constructor
        · rw [hreme]
          omega
        · rw [hreme, hfe.2.2.2.2]
          omega
    · intro qu hqu i hi hio
      by_cases hip : i = pidx
      · subst hip
        by_cases hioc : (s.procs.getD i dP).is_io_bound = false
        · have hcpu := run_time_cpu_le (s.procs.getD i dP)
            ((s.queues.getD (s.procs.getD i dP).current_queue
              dQ).time_quantum) hioc
          rw [htiqe, hfe.2.1, ← hts]
          omega
        · rw [hfe.1] at hio
          exact absurd hio hioc
      · have hne : pidx ≠ i := fun hc => hip hc.symm
        have hrec : (dispatch_core s pidx).procs.getD i dP
            = s.procs.getD i dP := by
          show (s.procs.set pidx _).getD i dP = s.procs.getD i dP
          exact getD_set_ne s.procs pidx i _ dP hne
        rw [hrec] at hio ⊢
        have hqu2 : qu ∈ s.queues := hqu
        exact hU qu hqu2 i hi hio
  · have hsetid : (dispatch_core s pidx).procs = s.procs := by
      show s.procs.set pidx _ = s.procs
      exact set_oob s.procs pidx _ (Nat.le_of_not_lt hlen)
    refine ⟨hQ, ?_, ?_⟩
    · intro p hp
      rw [hsetid] at hp
      exact hR p hp
    · intro qu hqu i hi hio
      have hqu2 : qu ∈ s.queues := hqu
      have hrec : (dispatch_core s pidx).procs.getD i dP
          = s.procs.getD i dP := by rw [hsetid]
      rw [hrec] at hio ⊢
      exact hU qu hqu2 i hi hio

theorem siminv_dispatch_route (s : SimState) (pidx : Nat) (rt ts : Int)
    (q : Nat) (h : SimInv s) : SimInv (dispatch_route s pidx rt ts q) := by
  simp only [dispatch_route]
  split_ifs
  · exact siminv_set_proc_preserve s pidx
      { s.procs.getD pidx dP with
        completion_time := s.current_time,
        turnaround_time :=
          s.current_time - (s.procs.getD pidx dP).arrival_time,
        waiting_time :=
          (s.current_time - (s.procs.getD pidx dP).arrival_time)
            - (s.procs.getD pidx dP).burst_time }
      rfl rfl (Or.inr ⟨rfl, rfl, rfl⟩) h
  · exact siminv_set_proc_preserve s pidx
      { s.procs.getD pidx dP with
        time_in_current_quantum := 0,
        arrival_time := s.current_time + 10 }
      rfl rfl (Or.inl (fun _ => quantumOf_nonneg _)) h
  · exact siminv_add _ pidx _ (siminv_set_proc_preserve s pidx
      { s.procs.getD pidx dP with time_in_current_quantum := 0 }
      rfl rfl (Or.inl (fun _ => quantumOf_nonneg _)) h)
  · exact siminv_add _ pidx _ (siminv_set_proc_preserve s pidx
      { s.procs.getD pidx dP with time_in_current_quantum := 0 }
      rfl rfl (Or.inl (fun _ => quantumOf_nonneg _)) h)
  · exact siminv_add _ pidx q h

theorem siminv_dispatch (s : SimState) (pidx : Nat) (h : SimInv s)
    (hd : DispOk s pidx) : SimInv (dispatch s pidx) :=
  siminv_dispatch_route _ pidx _ _ _ (siminv_dispatch_core s pidx h hd)

theorem set_proc_remAt (s : SimState) (pidx : Nat) (pnew : Process)
    (hrem : pnew.remaining_time = (s.procs.getD pidx dP).remaining_time)
    (i : Nat) :
    remAt { s with procs := s.procs.set pidx pnew } i = remAt s i := by
  unfold remAt
  show ((s.procs.set pidx pnew).getD i dP).remaining_time
    = (s.procs.getD i dP).remaining_time
  by_cases hip : i = pidx
  · subst hip
    by_cases hlen : i < s.procs.length
    · rw [getD_set_self s.procs i pnew dP hlen, hrem]
    · rw [getD_default (s.procs.set i pnew) i dP
        (by rw [List.length_set]; omega)]
      rw [getD_default s.procs i dP (by omega)]
  · rw [getD_set_ne s.procs pidx i pnew dP (fun hc => hip hc.symm)]

theorem add_remAt (s : SimState) (pidx level i : Nat) :
    remAt (add_process_to_queue s pidx level) i = remAt s i := by
  simp only [add_process_to_queue]
  split
  · exact set_proc_remAt s pidx
      { s.procs.getD pidx dP with
        current_queue := level, time_in_current_quantum := 0 } rfl i
  · rfl

theorem route_remAt (s : SimState) (pidx : Nat) (rt ts : Int) (q : Nat)
    (i : Nat) :
    remAt (dispatch_route s pidx rt ts q) i = remAt s i := by
  simp only [dispatch_route]
  split_ifs
  · exact set_proc_remAt s pidx
      { s.procs.getD pidx dP with
        completion_time := s.current_time,
        turnaround_time :=
          s.current_time - (s.procs.getD pidx dP).arrival_time,
        waiting_time :=
          (s.current_time - (s.procs.getD pidx dP).arrival_time)
            - (s.procs.getD pidx dP).burst_time } rfl i
  · exact set_proc_remAt s pidx
      { s.procs.getD pidx dP with
        time_in_current_quantum := 0,
        arrival_time := s.current_time + 10 } rfl i
  · exact (add_remAt _ pidx _ i).trans (set_proc_remAt s pidx
      { s.procs.getD pidx dP with time_in_current_quantum := 0 } rfl i)
  · exact (add_remAt _ pidx _ i).trans (set_proc_remAt s pidx
      { s.procs.getD pidx dP with time_in_current_quantum := 0 } rfl i)
  · exact (add_remAt _ pidx q i).trans rfl

theorem core_remAt (s : SimState) (pidx : Nat) (h : SimInv s)
    (hd : DispOk s pidx) (i : Nat) :
    remAt (dispatch_core s pidx) i ≤ remAt s i := by
  obtain ⟨hQ, hR, hU⟩ := h
  by_cases hip : i = pidx
  · subst hip
    by_cases hlen : i < s.procs.length
    · have hts : (s.queues.getD (s.procs.getD i dP).current_queue
          dQ).time_quantum
          = quantumOf (s.procs.getD i dP).current_queue :=
        qshape_quantum s hQ _
      have h0 : 0 ≤ (s.procs.getD i dP).remaining_time :=
        (hR _ (getD_mem s.procs i dP hlen)).1
      have hrtb := run_time_bounds (s.procs.getD i dP) _ h0 hts
        (fun hio => by rw [hts]; exact hd hio)
      have hgoal : remAt (dispatch_core s i) i
          = (s.procs.getD i dP).remaining_time
            - run_time_for (s.procs.getD i dP)
              ((s.queues.getD (s.procs.getD i dP).current_queue
                dQ).time_quantum) :=
        congrArg Process.remaining_time (core_getD s i hlen)
      have hgoal2 : remAt s i = (s.procs.getD i dP).remaining_time := rfl
      rw [hgoal, hgoal2]
      omega
    · unfold remAt
      have hsetid : (dispatch_core s i).procs = s.procs := by
        show s.procs.set i _ = s.procs
        exact set_oob s.procs i _ (Nat.le_of_not_lt hlen)
      rw [hsetid]
  · unfold remAt
    have hrec : (dispatch_core s pidx).procs.getD i dP
        = s.procs.getD i dP := by
      show (s.procs.set pidx _).getD i dP = s.procs.getD i dP
      exact getD_set_ne s.procs pidx i _ dP (fun hc => hip hc.symm)
    rw [hrec]

theorem check_arrivals_remAt (s : SimState) (i : Nat) :
    remAt (check_arrivals s) i = remAt s i := by
  unfold check_arrivals
  refine foldl_preserves _ (fun st => remAt st i) _ ?_ s
  intro st j _
  show remAt (if (st.procs.getD j dP).arrival_time = st.current_time then
      add_process_to_queue
        { st with events :=
            Event.arrives st.current_time (st.procs.getD j dP).id
              :: st.events } j 0
    else st) i = remAt st i
  split
  · exact (add_remAt _ j 0 i).trans rfl
  · rfl

theorem boost_level_remAt (s : SimState) (q i : Nat) :
    remAt (boost_level s q) i = remAt s i :=
  foldl_preserves (fun st j => add_process_to_queue st j 0)
    (fun st => remAt st i) ((s.queues.getD q dQ).processes)
    (fun st j _ => add_remAt st j 0 i) s

theorem maybe_boost_remAt (s : SimState) (i : Nat) :
    remAt (maybe_boost s) i = remAt s i := by
  unfold maybe_boost
  split
  · show remAt (boost_level (boost_level
      { s with events := Event.boostE s.current_time :: s.events } 1)
        2) i = remAt s i
    rw [boost_level_remAt, boost_level_remAt]
    rfl
  · rfl

theorem get_next_remAt (s : SimState) (i : Nat) :
    remAt (get_next_process s).2 i = remAt s i := by
  unfold get_next_process
  split
  · exact maybe_boost_remAt s i
  · split
    · exact maybe_boost_remAt s i
    · exact maybe_boost_remAt s i

theorem idle_remAt (s : SimState) (i : Nat) :
    remAt (idle_step s) i = remAt s i := by
  simp only [idle_step]
  split <;> rfl

theorem loop_iter_remAt (s : SimState) (h : SimInv s) (i : Nat) :
    remAt (loop_iter s) i ≤ remAt s i := by
  have hca := siminv_check_arrivals s h
  have hcar := check_arrivals_remAt s i
  unfold loop_iter
  split
  · rename_i pidx s2 heq
    have hspec := get_next_spec (check_arrivals s) hca
    rw [heq] at hspec
    have h2 : SimInv s2 := hspec.1
    have hdok : DispOk s2 pidx := hspec.2 pidx rfl
    have hg : remAt s2 i = remAt s i := by
      have hr := get_next_remAt (check_arrivals s) i
      rw [heq] at hr
      rw [show remAt s2 i
        = remAt (some pidx, s2).2 i from rfl, hr, hcar]
    calc remAt (dispatch s2 pidx) i
        = remAt (dispatch_core s2 pidx) i :=
          route_remAt (dispatch_core s2 pidx) pidx _ _ _ i
      _ ≤ remAt s2 i := core_remAt s2 pidx h2 hdok i
      _ = remAt s i := hg
  · rename_i s2 heq
    have hr := get_next_remAt (check_arrivals s) i
    rw [heq] at hr
    rw [idle_remAt]
    rw [show remAt s2 i = remAt (none, s2).2 i from rfl, hr, hcar]

theorem siminv_idle (s : SimState) (h : SimInv s) :
    SimInv (idle_step s) := by
  simp only [idle_step]
  split
  · exact h
  · exact h

theorem siminv_loop_iter (s : SimState) (h : SimInv s) :
    SimInv (loop_iter s) := by
  have hca := siminv_check_arrivals s h
  unfold loop_iter
  split
  · rename_i pidx s2 heq
    have hspec := get_next_spec (check_arrivals s) hca
    rw [heq] at hspec
    exact siminv_dispatch s2 pidx hspec.1 (hspec.2 pidx rfl)
  · rename_i s2 heq
    have hspec := get_next_spec (check_arrivals s) hca
    rw [heq] at hspec
    exact siminv_idle s2 hspec.1

theorem siminv_sim_loop (fuel : Nat) (s : SimState) (h : SimInv s) :
    SimInv (sim_loop fuel s) := by
  induction fuel with
  | zero => exact h
  | succ n ih =>
      show SimInv (sim_step (sim_loop n s))
      unfold sim_step
      split
      · exact siminv_loop_iter _ ih
      · exact ih

theorem siminv_init (ps : List Process)
    (hb : ∀ p ∈ ps, 0 ≤ p.burst_time) : SimInv (init_state ps) := by
  refine ⟨⟨[], [], [], by rfl⟩, ?_, ?_⟩
  · intro p hp
    rcases List.mem_map.1 hp with ⟨q, hq, rfl⟩
    have hbq := hb q hq
    exact ⟨hbq, le_refl _⟩
  · intro qu hqu i hi _
    have hqu2 : qu ∈ init_queues := hqu
    have hiq : init_queues = [{ processes := [], time_quantum := 10 },
        { processes := [], time_quantum := 20 },
        { processes := [], time_quantum := 40 }] := by rfl
    rw [hiq] at hqu2
    simp only [List.mem_cons, List.not_mem_nil, or_false] at hqu2
    rcases hqu2 with h1 | h1 | h1 <;> subst h1 <;> cases hi

/-- C8: for every process index, at every point of a run started from
any process list with nonnegative bursts, the remaining burst satisfies
`0 ≤ remaining ≤ burst`, and it is non-increasing from each step of the
loop to the next (every dispatch subtracts a `run_time` that is
nonnegative and never exceeds the remaining burst). -/
theorem c8_remaining_burst_bounds (ps : List Process) (fuel i : Nat)
    (hb : ∀ p ∈ ps, 0 ≤ p.burst_time) :
    0 ≤ remAt (run_mlfq_simulation ps fuel) i ∧
    remAt (run_mlfq_simulation ps fuel) i
      ≤ ((run_mlfq_simulation ps fuel).procs.getD i dP).burst_time ∧
    remAt (run_mlfq_simulation ps (fuel + 1)) i
      ≤ remAt (run_mlfq_simulation ps fuel) i := by
  have hinv : SimInv (run_mlfq_simulation ps fuel) :=
    siminv_sim_loop fuel (init_state ps) (siminv_init ps hb)
  refine ⟨?_, ?_, ?_⟩
  · by_cases hlen : i < (run_mlfq_simulation ps fuel).procs.length
    · exact (hinv.2.1 _ (getD_mem _ i dP hlen)).1
    · show 0 ≤ ((run_mlfq_simulation ps fuel).procs.getD i
        dP).remaining_time
      rw [getD_default _ i dP (Nat.le_of_not_lt hlen)]
      exact le_refl 0
  · by_cases hlen : i < (run_mlfq_simulation ps fuel).procs.length
    · exact (hinv.2.1 _ (getD_mem _ i dP hlen)).2
    · show ((run_mlfq_simulation ps fuel).procs.getD i
        dP).remaining_time ≤ _
      rw [getD_default _ i dP (Nat.le_of_not_lt hlen)]
      exact le_refl 0
  · show remAt (sim_step (run_mlfq_simulation ps fuel)) i
      ≤ remAt (run_mlfq_simulation ps fuel) i
    unfold sim_step
    split
    · exact loop_iter_remAt _ hinv i
    · exact le_refl _

/-- Closed instance of the remaining-burst bounds on the `ps_c1` input
after three loop iterations. -/
theorem c8_remaining_burst_bounds_witness :
    0 ≤ remAt (run_mlfq_simulation ps_c1 3) 0 ∧
    remAt (run_mlfq_simulation ps_c1 3) 0
      ≤ ((run_mlfq_simulation ps_c1 3).procs.getD 0 dP).burst_time ∧
    remAt (run_mlfq_simulation ps_c1 (3 + 1)) 0
      ≤ remAt (run_mlfq_simulation ps_c1 3) 0 :=
  c8_remaining_burst_bounds ps_c1 3 0 (by decide)
